import Mathlib

/-!
# pools: ring buffer and resource pool coordinator

A shallow embedding of `pools/ring.go` and `pools/resourcepool.go`.

* Go `int` fields are `Int` (lengths never approach the 64-bit range).
* A Go run-time panic (index out of range, slice bounds out of range, division
  by zero) is the result `none`.
* A value of the empty interface `Resource` is a term of the inductive type
  `Resource`; the mutexes are left out, each operation being atomic.
-/

namespace pools

/-- The message of an `Acquire()` caller: its response and error channels,
each identified by a number. -/
structure acquireMessage where
  rch : Nat
  ech : Nat
deriving DecidableEq, Repr

/-- Values of the empty interface `Resource`: the nil interface, a user object
without the `closer` methods, a user object with them, and the values the
package itself stores in rings (integers and the three message structs). -/
inductive Resource where
  | nil
  | plain (id : Nat)
  | closer (id : Nat)
  | int (n : Int)
  | acq (m : acquireMessage)
  | rel (r : Resource)
  | cls
deriving DecidableEq, Repr

/-- The struct `releaseMessage`. -/
structure releaseMessage where
  r : Resource
deriving DecidableEq, Repr

/-- The struct `closeMessage`. -/
structure closeMessage where
deriving DecidableEq, Repr

/-- The type assertion `r.(closer)`: does the dynamic type have the methods
`Close` and `IsClosed`. -/
def Resource.isCloser : Resource → Bool
  | .closer _ => true
  | _ => false

/-! ## ring.go -/

/-- The struct `ring` (without its mutex). -/
structure ring where
  cnt : Int
  i : Int
  data : List Resource
deriving DecidableEq, Repr

/-- The zero value of `ring`. -/
def ring.zero : ring := { cnt := 0, i := 0, data := [] }

/-- Go `a % b` on `int`: panics when `b` is zero, truncates otherwise. -/
def goMod (a b : Int) : Option Int :=
  if b = 0 then none else some (Int.tmod a b)

/-- Go `s[k]` as a read. -/
def index (s : List Resource) (k : Int) : Option Resource :=
  if 0 ≤ k then s[k.toNat]? else none

/-- Go `s[k] = x`. -/
def store (s : List Resource) (k : Int) (x : Resource) : Option (List Resource) :=
  if 0 ≤ k ∧ k < s.length then some (s.set k.toNat x) else none

/-- Go `s[lo:]`. -/
def sliceFrom (s : List Resource) (lo : Int) : Option (List Resource) :=
  if 0 ≤ lo ∧ lo ≤ s.length then some (s.drop lo.toNat) else none

/-- Go `s[:hi]` (the capacity of every storage slice equals its length). -/
def sliceTo (s : List Resource) (hi : Int) : Option (List Resource) :=
  if 0 ≤ hi ∧ hi ≤ s.length then some (s.take hi.toNat) else none

/-- Go `make([]Resource, n)`. -/
def make (n : Int) : Option (List Resource) :=
  if 0 ≤ n then some (List.replicate n.toNat Resource.nil) else none

/-- Go `copy(dst[off:], src)` for `off ≤ len(dst)`: the written `dst` and the
number of elements copied. -/
def copyAt (dst : List Resource) (off : Nat) (src : List Resource) : List Resource × Nat :=
  let n := min (dst.length - off) src.length
  (dst.take off ++ src.take n ++ dst.drop (off + n), n)

/-- Method `Size`. -/
def ring.Size (rb : ring) : Int := rb.cnt

/-- Method `Empty`. -/
def ring.Empty (rb : ring) : Bool := rb.cnt == 0

/-- Method `peekWithLock`. -/
def ring.peekWithLock (rb : ring) : Option Resource := index rb.data rb.i

/-- Method `Peek`. -/
def ring.Peek (rb : ring) : Option Resource := rb.peekWithLock

/-- Method `growWithLock`. -/
def ring.growWithLock (rb : ring) (newSize : Int) : Option ring := do
  let newData ← make newSize
  let src1 ← sliceFrom rb.data rb.i
  let (newData1, n) := copyAt newData 0 src1
  let src2 ← sliceTo rb.data (rb.cnt - n)
  let (newData2, _) := copyAt newData1 n src2
  some { rb with i := 0, data := newData2 }

/-- Method `Enqueue`. -/
def ring.Enqueue (rb : ring) (x : Resource) : Option ring := do
  let rb1 ← if rb.cnt ≥ rb.data.length then rb.growWithLock (2 * rb.cnt + 1) else some rb
  let k ← goMod (rb1.i + rb1.cnt) rb1.data.length
  let data ← store rb1.data k x
  some { rb1 with data := data, cnt := rb1.cnt + 1 }

/-- Method `Dequeue`: the value returned and the ring left behind. -/
def ring.Dequeue (rb : ring) : Option (Resource × ring) := do
  let x ← rb.peekWithLock
  let i ← goMod (rb.i + 1) rb.data.length
  some (x, { rb with cnt := rb.cnt - 1, i := i })

/-- A call of one of the exported methods of `ring`. -/
inductive RingOp where
  | Enqueue (x : Resource)
  | Dequeue
  | Peek
  | Size
  | Empty
deriving DecidableEq, Repr

/-- What a call of a method of `ring` returns. -/
inductive RingRet where
  | unit
  | value (r : Resource)
  | size (n : Int)
  | empty (b : Bool)
deriving DecidableEq, Repr

/-- One method call on a ring: the ring afterwards and the value returned. -/
def ring.call (rb : ring) : RingOp → Option (ring × RingRet)
  | RingOp.Enqueue x => (rb.Enqueue x).map (fun rb1 => (rb1, RingRet.unit))
  | RingOp.Dequeue => rb.Dequeue.map (fun p => (p.2, RingRet.value p.1))
  | RingOp.Peek => rb.Peek.map (fun x => (rb, RingRet.value x))
  | RingOp.Size => some (rb, RingRet.size rb.Size)
  | RingOp.Empty => some (rb, RingRet.empty rb.Empty)

/-- A sequence of method calls on a ring: the ring afterwards and the values
returned, in order. -/
def ring.calls (rb : ring) : List RingOp → Option (ring × List RingRet)
  | [] => some (rb, [])
  | op :: ops =>
    match rb.call op with
    | none => none
    | some (rb1, ret) =>
      match rb1.calls ops with
      | none => none
      | some (rb2, rets) => some (rb2, ret :: rets)

/-- Does the caller check first: is `Empty()` false before every `Dequeue` and
every `Peek` of the sequence. -/
def ring.guarded (rb : ring) : List RingOp → Bool
  | [] => true
  | op :: ops =>
    (match op with
      | RingOp.Dequeue => !rb.Empty
      | RingOp.Peek => !rb.Empty
      | _ => true) &&
    match rb.call op with
    | some (rb1, _) => rb1.guarded ops
    | none => true

/-! ## resourcepool.go -/

/-- The struct `namedRing` (without its mutex): an embedded `ring`, a name and
the diagnostic counter. -/
structure namedRing extends ring where
  Name : String
  Cnt : Int
deriving DecidableEq, Repr

/-- Method `get` of `namedRing`. -/
def namedRing.get (r : namedRing) : Option (Resource × namedRing) :=
  if r.toring.Empty then some (Resource.nil, r)
  else do
    let r1 : namedRing := { r with Cnt := r.Cnt - 1 }
    let (x, rb) ← r1.toring.Dequeue
    some (x, { r1 with toring := rb })

/-- Method `put` of `namedRing`. -/
def namedRing.put (r : namedRing) (m : Resource) : Option namedRing := do
  let r1 : namedRing := { r with Cnt := r.Cnt + 1 }
  let rb ← r1.toring.Enqueue m
  some { r1 with toring := rb }

/-- What the coordinator does to the outside world, in program order. -/
inductive Effect where
  /-- a call `rp.factory()` -/
  | factory
  /-- a send `ch <- r` on the response channel `ch` -/
  | sendR (ch : Nat) (r : Resource)
  /-- a send `ch <- err` on the error channel `ch` -/
  | sendE (ch : Nat) (err : String)
  /-- a call `cr.Close()` -/
  | close (r : Resource)
deriving DecidableEq, Repr

/-- What the outside world answers while the coordinator handles one message:
the pair returned by `rp.factory()` if it is called (`none` is the nil error),
and the answer of `IsClosed()` on each closer. -/
structure Env where
  factory : Resource × Option String
  IsClosed : Resource → Bool

/-- The struct `ResourcePool`: the fields the coordinator owns. The factory is
part of `Env`; the three channels carry the `Msg` values handed to `mux`. -/
structure ResourcePool where
  idleResources : ring
  idleCapacity : Int
  maxResources : Int
  numResources : Int
  activeWaits : List acquireMessage
deriving DecidableEq, Repr

/-- The pool built by `NewResourcePool(factory, idleCapacity, maxResources)`. -/
def NewResourcePool (idleCapacity maxResources : Int) : ResourcePool :=
  { idleResources := ring.zero, idleCapacity := idleCapacity, maxResources := maxResources,
    numResources := 0, activeWaits := [] }

/-- The loop `for !rp.idleResources.Empty() { ... }` of `acquire`. The result
`(rp, some r)` is the `return` after `acq.rch <- r`; `(rp, none)` is the exit of
the loop. Every iteration lowers `cnt` by one, so `cnt + 1` units of fuel are
enough when `cnt` is not negative; running out of fuel is `none`. -/
def acquireLoop (env : Env) : Nat → ResourcePool → Option (ResourcePool × Option Resource)
  | 0, _ => none
  | fuel + 1, rp =>
    if !rp.idleResources.Empty then do
      let (r, rb) ← rp.idleResources.Dequeue
      let rp1 : ResourcePool := { rp with idleResources := rb }
      if !r.isCloser || !env.IsClosed r then
        some (rp1, some r)
      else
        acquireLoop env fuel { rp1 with numResources := rp1.numResources - 1 }
    else
      some (rp, none)

/-- Method `acquire`. -/
def ResourcePool.acquire (env : Env) (rp : ResourcePool) (acq : acquireMessage) :
    Option (ResourcePool × List Effect) := do
  let (rp1, sent) ← acquireLoop env (rp.idleResources.cnt.toNat + 1) rp
  match sent with
  | some r => some (rp1, [Effect.sendR acq.rch r])
  | none =>
    let nr := rp1.numResources
    if rp1.maxResources != -1 && nr ≥ rp1.maxResources then
      some ({ rp1 with activeWaits := rp1.activeWaits ++ [acq] }, [])
    else
      match env.factory with
      | (_, some err) => some (rp1, [Effect.factory, Effect.sendE acq.ech err])
      | (r, none) =>
        some ({ rp1 with numResources := rp1.numResources + 1 },
          [Effect.factory, Effect.sendR acq.rch r])

/-- Method `release`. -/
def ResourcePool.release (env : Env) (rp : ResourcePool) (resource : Resource) :
    Option (ResourcePool × List Effect) :=
  if resource == Resource.nil || (resource.isCloser && env.IsClosed resource) then
    some ({ rp with numResources := rp.numResources - 1 }, [])
  else if rp.idleCapacity != -1 && rp.idleResources.Size == rp.idleCapacity then
    some ({ rp with numResources := rp.numResources - 1 },
      if resource.isCloser then [Effect.close resource] else [])
  else do
    let rb ← rp.idleResources.Enqueue resource
    some ({ rp with idleResources := rb }, [])

/-- A message received by the `select` of `mux`. -/
inductive Msg where
  | acq (m : acquireMessage)
  | rel (m : releaseMessage)
  | cls (m : closeMessage)
deriving DecidableEq, Repr

/-- The state the coordinator works on: its pool and the three package-level
free lists. -/
structure State where
  rp : ResourcePool
  acqRing : namedRing
  relRing : namedRing
  clsRing : namedRing
deriving DecidableEq, Repr

/-- The `case acq := <-rp.acqchan` branch of `mux`. -/
def muxAcq (env : Env) (st : State) (acq : acquireMessage) : Option (State × List Effect) := do
  let (rp, out) ← st.rp.acquire env acq
  let ar ← st.acqRing.put (Resource.acq acq)
  some ({ st with rp := rp, acqRing := ar }, out)

/-- The `case rel := <-rp.rchan` branch of `mux`. -/
def muxRel (env : Env) (st : State) (rel : releaseMessage) : Option (State × List Effect) := do
  let (rp, out) ←
    match st.rp.activeWaits with
    | w :: rest =>
      if !rel.r.isCloser || !env.IsClosed rel.r then
        some ({ st.rp with activeWaits := rest }, [Effect.sendR w.rch rel.r])
      else
        match env.factory with
        | (_, some err) =>
          some ({ st.rp with numResources := st.rp.numResources - 1, activeWaits := rest },
            [Effect.factory, Effect.sendE w.ech err])
        | (r, none) =>
          some ({ st.rp with activeWaits := rest }, [Effect.factory, Effect.sendR w.rch r])
    | [] => st.rp.release env rel.r
  let rr ← st.relRing.put (Resource.rel rel.r)
  some ({ st with rp := rp, relRing := rr }, out)

/-- The loop `for !rp.idleResources.Empty() { ... }` that follows the `select`
loop of `mux`; fuel as in `acquireLoop`. -/
def drainLoop : Nat → ring → Option (ring × List Effect)
  | 0, _ => none
  | fuel + 1, rb =>
    if !rb.Empty then do
      let (r, rb1) ← rb.Dequeue
      let (rb2, out) ← drainLoop fuel rb1
      some (rb2, (if r.isCloser then [Effect.close r] else []) ++ out)
    else
      some (rb, [])

/-- The `case cm := <-rp.cchan` branch of `mux` followed by the two loops after
`break loop`, up to the return of `mux`. -/
def muxCls (st : State) (_cm : closeMessage) : Option (State × List Effect) := do
  let cr ← st.clsRing.put Resource.cls
  let (rb, out1) ← drainLoop (st.rp.idleResources.cnt.toNat + 1) st.rp.idleResources
  let out2 := st.rp.activeWaits.map (fun aw => Effect.sendE aw.ech "Resource pool closed")
  some ({ st with rp := { st.rp with idleResources := rb }, clsRing := cr }, out1 ++ out2)

/-- One message handled by `mux`. -/
def step (env : Env) (st : State) : Msg → Option (State × List Effect)
  | Msg.acq m => muxAcq env st m
  | Msg.rel m => muxRel env st m
  | Msg.cls m => muxCls st m

/-- The resources sent on response channels, in order. -/
def delivered : List Effect → List Resource
  | [] => []
  | Effect.sendR _ r :: es => r :: delivered es
  | _ :: es => delivered es

/-- The resources checked out after a message with effects `out`, given those
checked out before it: a release returns its resource, every resource sent to
a caller is checked out. -/
def checkedOut (held : List Resource) (m : Msg) (out : List Effect) : List Resource :=
  (match m with
    | Msg.rel rel => held.erase rel.r
    | _ => held) ++ delivered out

/-- Method `mux` on the messages its `select` receives, each with the answers
of the outside world while it is handled. The result is the state, the
checked-out resources and all effects in order, when the messages are used up
or `mux` has returned (after the first close message). -/
def mux : State → List Resource → List (Env × Msg) →
    Option (State × List Resource × List Effect)
  | st, held, [] => some (st, held, [])
  | st, held, (env, m) :: rest =>
    match step env st m with
    | none => none
    | some (st1, out) =>
      match m with
      | Msg.cls _ => some (st1, checkedOut held m out, out)
      | _ =>
        match mux st1 (checkedOut held m out) rest with
        | none => none
        | some (st2, held2, out2) => some (st2, held2, out ++ out2)

/-- A loop `for ... { r.Enqueue(x) }` over the values `xs`, in order. -/
def ring.enqueueAll (rb : ring) : List Resource → Option ring
  | [] => some rb
  | x :: xs => (rb.Enqueue x).bind (fun rb1 => rb1.enqueueAll xs)

/-- The messages the first loop of `init` enqueues: channels are numbered in
the order of the `make` calls, so the `k`-th message has the channels `2k` and
`2k+1`. -/
def initAcquireMessages (n : Nat) : List acquireMessage :=
  (List.range n).map (fun k => ⟨2 * k, 2 * k + 1⟩)

/-- Function `init`: the free lists `acqRing`, `relRing` and `clsRing` after
it, each built from the zero value. The second and third loop are
`for m := range rMsgs` and `for m := range cMsgs`, whose `m` is the index. -/
def init : Option (namedRing × namedRing × namedRing) :=
  let numClsMsgPrealloc := 1
  let numAcqMsgPrealloc := 128
  let numRelMsgPrealloc := 128
  match ring.zero.enqueueAll ((initAcquireMessages numAcqMsgPrealloc).map Resource.acq),
    ring.zero.enqueueAll ((List.range numRelMsgPrealloc).map (fun m => Resource.int m)),
    ring.zero.enqueueAll ((List.range numClsMsgPrealloc).map (fun m => Resource.int m)) with
  | some a, some r, some c =>
    some ({ toring := a, Name := "acqRing", Cnt := 0 },
      { toring := r, Name := "relRing", Cnt := 0 },
      { toring := c, Name := "clsRing", Cnt := 0 })
  | _, _, _ => none

/-- The type assertion `m.(acquireMessage)`: the message when `ok`, `none`
when not. -/
def Resource.asAcquireMessage : Resource → Option acquireMessage
  | Resource.acq m => some m
  | _ => none

/-- The type assertion `m.(releaseMessage)`. -/
def Resource.asReleaseMessage : Resource → Option releaseMessage
  | Resource.rel r => some ⟨r⟩
  | _ => none

/-- The type assertion `m.(closeMessage)`. -/
def Resource.asCloseMessage : Resource → Option closeMessage
  | Resource.cls => some {}
  | _ => none

/-- Function `getAcquireMessage` on the free list `acqRing`: the message
returned, the final value of the local `ok` (was the popped entry used), and
the free list afterwards. `fresh` is the message made of two new channels that
is returned when `ok` is false. -/
def getAcquireMessage (acqRing : namedRing) (fresh : acquireMessage) :
    Option (acquireMessage × Bool × namedRing) :=
  match acqRing.get with
  | none => none
  | some (m, ring1) =>
    match (if m != Resource.nil then m.asAcquireMessage else none) with
    | some acq => some (acq, true, ring1)
    | none => some (fresh, false, ring1)

/-- Function `getReleaseMessage` on the free list `relRing`: the message
returned, the final value of the local `ok`, and the free list afterwards. -/
def getReleaseMessage (relRing : namedRing) : Option (releaseMessage × Bool × namedRing) :=
  match relRing.get with
  | none => none
  | some (m, ring1) =>
    match (if m != Resource.nil then m.asReleaseMessage else none) with
    | some rel => some (rel, true, ring1)
    | none => some (⟨Resource.nil⟩, false, ring1)

/-- Function `getCloseMessage` on the free list `clsRing`: the message
returned, the final value of the local `ok`, and the free list afterwards. -/
def getCloseMessage (clsRing : namedRing) : Option (closeMessage × Bool × namedRing) :=
  match clsRing.get with
  | none => none
  | some (m, ring1) =>
    match (if m != Resource.nil then m.asCloseMessage else none) with
    | some cm => some (cm, true, ring1)
    | none => some ({}, false, ring1)

/-- Method `Acquire` up to the point where the coordinator has handled the
request: `getAcquireMessage`, the send on `acqchan`, and the acquire case of
`mux`. The result is the state, the effects of the coordinator and the message
on whose channels the caller then waits. -/
def Acquire (env : Env) (st : State) (fresh : acquireMessage) :
    Option (State × List Effect × acquireMessage) :=
  match getAcquireMessage st.acqRing fresh with
  | none => none
  | some (acq, _, ring1) =>
    match step env { st with acqRing := ring1 } (Msg.acq acq) with
    | none => none
    | some (st1, out) => some (st1, out, acq)

/-- Calls of `Acquire` one after the other, each with its outside world and
the message it would build afresh: the final state and the messages the
callers wait on, in order. -/
def Acquires (st : State) : List (Env × acquireMessage) → Option (State × List acquireMessage)
  | [] => some (st, [])
  | (env, fresh) :: rest =>
    match Acquire env st fresh with
    | none => none
    | some (st1, _, acq) =>
      match Acquires st1 rest with
      | none => none
      | some (st2, acqs) => some (st2, acq :: acqs)

/-! ## Specification-level notions -/

/-- The representation invariant of a ring: the count and the start index lie
within the storage. -/
def ring.WF (rb : ring) : Prop :=
  0 ≤ rb.cnt ∧ rb.cnt ≤ rb.data.length ∧ 0 ≤ rb.i ∧
    (rb.i < rb.data.length ∨ (rb.i = 0 ∧ rb.data = []))

/-- The queue a ring stands for: `cnt` elements of the storage read circularly
from the start index. -/
def ring.toList (rb : ring) : List Resource :=
  (rb.data.rotate rb.i.toNat).take rb.cnt.toNat

/-- The representation invariant of the coordinator's state. -/
def State.WF (st : State) : Prop :=
  st.rp.idleResources.WF ∧ st.acqRing.toring.WF ∧ st.relRing.toring.WF ∧ st.clsRing.toring.WF

/-- The test `isCloser && cr.IsClosed()`. -/
def closedNow (env : Env) (r : Resource) : Bool :=
  r.isCloser && env.IsClosed r

/-- The coordinator's state with every ring replaced by the queue it stands
for. -/
structure Model where
  idle : List Resource
  idleCapacity : Int
  maxResources : Int
  numResources : Int
  activeWaits : List acquireMessage
  acqFree : List Resource
  relFree : List Resource
  clsFree : List Resource
deriving DecidableEq, Repr

/-- The queues and counters of a state. -/
def State.model (st : State) : Model :=
  { idle := st.rp.idleResources.toList, idleCapacity := st.rp.idleCapacity,
    maxResources := st.rp.maxResources, numResources := st.rp.numResources,
    activeWaits := st.rp.activeWaits, acqFree := st.acqRing.toring.toList,
    relFree := st.relRing.toring.toList, clsFree := st.clsRing.toring.toList }

/-- What `step` does, read on queues: used to reason about `step`. -/
def Model.step (env : Env) (s : Model) : Msg → Model × List Effect
  | Msg.acq acq =>
    let n := s.numResources - ((s.idle.takeWhile (closedNow env)).length : Int)
    let free := s.acqFree ++ [Resource.acq acq]
    match s.idle.dropWhile (closedNow env) with
    | r :: rest =>
      ({ s with idle := rest, numResources := n, acqFree := free }, [Effect.sendR acq.rch r])
    | [] =>
      if s.maxResources != -1 && n ≥ s.maxResources then
        ({ s with idle := [], numResources := n, activeWaits := s.activeWaits ++ [acq],
                  acqFree := free }, [])
      else
        match env.factory with
        | (_, some err) =>
          ({ s with idle := [], numResources := n, acqFree := free },
            [Effect.factory, Effect.sendE acq.ech err])
        | (r, none) =>
          ({ s with idle := [], numResources := n + 1, acqFree := free },
            [Effect.factory, Effect.sendR acq.rch r])
  | Msg.rel rel =>
    let free := s.relFree ++ [Resource.rel rel.r]
    match s.activeWaits with
    | w :: rest =>
      if !closedNow env rel.r then
        ({ s with activeWaits := rest, relFree := free }, [Effect.sendR w.rch rel.r])
      else
        match env.factory with
        | (_, some err) =>
          ({ s with numResources := s.numResources - 1, activeWaits := rest, relFree := free },
            [Effect.factory, Effect.sendE w.ech err])
        | (r, none) =>
          ({ s with activeWaits := rest, relFree := free },
            [Effect.factory, Effect.sendR w.rch r])
    | [] =>
      if rel.r == Resource.nil || closedNow env rel.r then
        ({ s with numResources := s.numResources - 1, relFree := free }, [])
      else if s.idleCapacity != -1 && (s.idle.length : Int) == s.idleCapacity then
        ({ s with numResources := s.numResources - 1, relFree := free },
          if rel.r.isCloser then [Effect.close rel.r] else [])
      else
        ({ s with idle := s.idle ++ [rel.r], relFree := free }, [])
  | Msg.cls _ =>
    ({ s with idle := [], clsFree := s.clsFree ++ [Resource.cls] },
      ((s.idle.filter Resource.isCloser).map Effect.close) ++
        s.activeWaits.map (fun aw => Effect.sendE aw.ech "Resource pool closed"))

/-- What `mux` does, read on queues. -/
def Model.mux : Model → List Resource → List (Env × Msg) →
    Model × List Resource × List Effect
  | s, held, [] => (s, held, [])
  | s, held, (env, m) :: rest =>
    match m with
    | Msg.cls _ => ((s.step env m).1, checkedOut held m (s.step env m).2, (s.step env m).2)
    | _ =>
      let next := Model.mux (s.step env m).1 (checkedOut held m (s.step env m).2) rest
      (next.1, next.2.1, (s.step env m).2 ++ next.2.2)

/-- The sends of a log: everything but the calls of the factory. -/
def responses (log : List Effect) : List Effect :=
  log.filter (fun e => e != Effect.factory)

/-- The acquire message of a caller, with the outside world it is handled in. -/
def acqOf (q : Env × acquireMessage) : Env × Msg := (q.1, Msg.acq q.2)

/-- Method `NumResources`. -/
def ResourcePool.NumResources (rp : ResourcePool) : Int := rp.numResources

/-- Does a message return only what is checked out: a release must carry a
resource of `held`, a close is not allowed. -/
def Msg.returns (m : Msg) (held : List Resource) : Bool :=
  match m with
  | Msg.acq _ => true
  | Msg.rel x => decide (x.r ∈ held)
  | Msg.cls _ => false

/-- Every release of the trace returns a resource that is checked out when the
release is processed, and no message closes the pool. -/
def Returned : State → List Resource → List (Env × Msg) → Bool
  | _, _, [] => true
  | st, held, (env, m) :: rest =>
    m.returns held &&
    match step env st m with
    | some (st1, out) => Returned st1 (checkedOut held m out) rest
    | none => true

/-- `Returned`, read on queues. -/
def Model.Returned : Model → List Resource → List (Env × Msg) → Bool
  | _, _, [] => true
  | s, held, (env, m) :: rest =>
    m.returns held &&
    Model.Returned (s.step env m).1 (checkedOut held m (s.step env m).2) rest

/-- The factory does not fail and does not return nil. -/
def GoodFactory (env : Env) : Prop :=
  env.factory.2 = none ∧ env.factory.1 ≠ Resource.nil

instance GoodFactory.instDecidable (env : Env) : Decidable (GoodFactory env) :=
  inferInstanceAs (Decidable (env.factory.2 = none ∧ env.factory.1 ≠ Resource.nil))

/-- The outside world in which the factory returns `r` and no closer is
closed. -/
def Env.making (r : Resource) : Env :=
  { factory := (r, none), IsClosed := fun _ => false }

/-- The outside world in which the factory returns `r` and exactly the
resources of `closed` report `IsClosed()`. -/
def Env.replacing (r : Resource) (closed : List Resource) : Env :=
  { factory := (r, none), IsClosed := fun x => decide (x ∈ closed) }

/-- The outside world in which the factory fails with `err` and exactly the
resources of `closed` report `IsClosed()`. -/
def Env.failing (err : String) (closed : List Resource) : Env :=
  { factory := (Resource.nil, some err), IsClosed := fun r => decide (r ∈ closed) }

/-- A state whose pool is the one `NewResourcePool` builds. -/
def State.isNew (st : State) (idleCapacity maxResources : Int) : Prop :=
  st.rp = NewResourcePool idleCapacity maxResources ∧ st.WF

/-- A state right after `NewResourcePool`, with empty free lists. -/
def State.fresh (idleCapacity maxResources : Int) : State :=
  { rp := NewResourcePool idleCapacity maxResources,
    acqRing := { toring := ring.zero, Name := "acqRing", Cnt := 0 },
    relRing := { toring := ring.zero, Name := "relRing", Cnt := 0 },
    clsRing := { toring := ring.zero, Name := "clsRing", Cnt := 0 } }

instance ring.WF.instDecidable (rb : ring) : Decidable rb.WF :=
  inferInstanceAs (Decidable (0 ≤ rb.cnt ∧ rb.cnt ≤ rb.data.length ∧ 0 ≤ rb.i ∧
    (rb.i < rb.data.length ∨ (rb.i = 0 ∧ rb.data = []))))

instance State.WF.instDecidable (st : State) : Decidable st.WF :=
  inferInstanceAs (Decidable (st.rp.idleResources.WF ∧ st.acqRing.toring.WF ∧
    st.relRing.toring.WF ∧ st.clsRing.toring.WF))

/-- The scenario `idleCapacity = 0`, `maxResources = 1` with two callers: the
first acquire is served by the factory with object 1, the second finds the pool
saturated. -/
def twoCallers : List (Env × Msg) :=
  [(Env.making (Resource.closer 1), Msg.acq ⟨0, 1⟩),
   (Env.making (Resource.closer 2), Msg.acq ⟨2, 3⟩)]

/-- The state `twoCallers` leads to from a fresh pool: the second caller is
parked. -/
def parkedState : State :=
  { rp := { idleResources := ring.zero, idleCapacity := 0, maxResources := 1, numResources := 1,
            activeWaits := [⟨2, 3⟩] },
    acqRing := { cnt := 2, i := 0,
                 data := [Resource.acq ⟨0, 1⟩, Resource.acq ⟨2, 3⟩, Resource.nil],
                 Name := "acqRing", Cnt := 2 },
    relRing := { toring := ring.zero, Name := "relRing", Cnt := 0 },
    clsRing := { toring := ring.zero, Name := "clsRing", Cnt := 0 } }

/-- A sample trace: an acquire that the factory serves with object 7, then the
release of that object. -/
def sampleTrace : List (Env × Msg) :=
  [(Env.making (Resource.plain 7), Msg.acq ⟨0, 1⟩),
   (Env.making (Resource.plain 8), Msg.rel ⟨Resource.plain 7⟩)]

/-- A sample trace with every kind of message: the factory fails for the first
caller and serves the second with object 1; object 1 and a nil are released;
the pool is closed. -/
def mixedTrace : List (Env × Msg) :=
  [(Env.failing "no route" [], Msg.acq ⟨0, 1⟩),
   (Env.making (Resource.closer 1), Msg.acq ⟨2, 3⟩),
   (Env.making (Resource.closer 2), Msg.rel ⟨Resource.closer 1⟩),
   (Env.failing "no route" [Resource.closer 1], Msg.rel ⟨Resource.nil⟩),
   (Env.making (Resource.closer 3), Msg.cls {})]

/-- A sample trace in which object 1 is closed: it is released, then a new
caller acquires. -/
def closedTrace : List (Env × Msg) :=
  [(Env.replacing (Resource.closer 9) [Resource.closer 1], Msg.rel ⟨Resource.closer 1⟩),
   (Env.replacing (Resource.closer 10) [Resource.closer 1], Msg.acq ⟨4, 5⟩)]

/-- A state with two idle entries, stored across the end of the storage, and
one parked request. -/
def drainState : State :=
  { rp := { idleResources := { cnt := 2, i := 2,
                               data := [Resource.plain 2, Resource.nil, Resource.closer 1] },
            idleCapacity := 2, maxResources := 3, numResources := 2, activeWaits := [⟨6, 7⟩] },
    acqRing := { toring := ring.zero, Name := "acqRing", Cnt := 0 },
    relRing := { toring := ring.zero, Name := "relRing", Cnt := 0 },
    clsRing := { toring := ring.zero, Name := "clsRing", Cnt := 0 } }

/-- Two callers whose acquires the factory serves with objects 1 and 2. -/
def firstCallers : List (Env × acquireMessage) :=
  [(Env.making (Resource.closer 1), ⟨0, 1⟩), (Env.making (Resource.closer 2), ⟨2, 3⟩)]

/-- Two later callers, for whom the factory would make objects 3 and 4. -/
def laterCallers : List (Env × acquireMessage) :=
  [(Env.making (Resource.closer 3), ⟨4, 5⟩), (Env.making (Resource.closer 4), ⟨6, 7⟩)]

/-- The list model of the ring contract: `Enqueue` appends at the end,
`Dequeue` removes and returns the first element, `Peek` returns it and changes
nothing, `Size` is the length, `Empty` tells whether the length is 0. `Dequeue`
and `Peek` have no outcome on the empty list. -/
def Fifo.call (q : List Resource) : RingOp → Option (List Resource × RingRet)
  | RingOp.Enqueue x => some (q ++ [x], RingRet.unit)
  | RingOp.Dequeue =>
    match q with
    | [] => none
    | x :: rest => some (rest, RingRet.value x)
  | RingOp.Peek =>
    match q with
    | [] => none
    | x :: _ => some (q, RingRet.value x)
  | RingOp.Size => some (q, RingRet.size (q.length : Int))
  | RingOp.Empty => some (q, RingRet.empty (q.length == 0))

/-- A sequence of calls on the list model. -/
def Fifo.calls (q : List Resource) : List RingOp → Option (List Resource × List RingRet)
  | [] => some (q, [])
  | op :: ops =>
    match Fifo.call q op with
    | none => none
    | some (q1, ret) =>
      match Fifo.calls q1 ops with
      | none => none
      | some (q2, rets) => some (q2, ret :: rets)

/-- A sample sequence of calls: the storage grows from 0 to 1, 3 and 7 slots and
the fourth enqueue wraps around to slot 0. -/
def sampleCalls : List RingOp :=
  [RingOp.Empty, RingOp.Enqueue (Resource.plain 1), RingOp.Enqueue (Resource.plain 2),
   RingOp.Dequeue, RingOp.Enqueue (Resource.plain 3), RingOp.Enqueue (Resource.plain 4),
   RingOp.Size, RingOp.Enqueue (Resource.plain 5), RingOp.Peek, RingOp.Dequeue,
   RingOp.Size, RingOp.Empty]

/-- A full ring whose head is in slot 1. -/
def fullRing : ring :=
  { cnt := 3, i := 1, data := [Resource.plain 4, Resource.plain 2, Resource.plain 3] }

/-- The scenario `idleCapacity = 2`, `maxResources = 3` up to the release of the
third resource: three acquires served with objects 1, 2 and 3, then the
releases of objects 1 and 2. -/
def threeThenTwo : List (Env × Msg) :=
  [(Env.making (Resource.closer 1), Msg.acq ⟨0, 1⟩),
   (Env.making (Resource.closer 2), Msg.acq ⟨2, 3⟩),
   (Env.making (Resource.closer 3), Msg.acq ⟨4, 5⟩),
   (Env.making Resource.nil, Msg.rel ⟨Resource.closer 1⟩),
   (Env.making Resource.nil, Msg.rel ⟨Resource.closer 2⟩)]

/-- The state `threeThenTwo` leads to from a fresh pool: two idle resources, the
idle queue at capacity, three resources counted. -/
def fullIdleState : State :=
  { rp := { idleResources := { cnt := 2, i := 0,
                               data := [Resource.closer 1, Resource.closer 2, Resource.nil] },
            idleCapacity := 2, maxResources := 3, numResources := 3, activeWaits := [] },
    acqRing := { cnt := 3, i := 0,
                 data := [Resource.acq ⟨0, 1⟩, Resource.acq ⟨2, 3⟩, Resource.acq ⟨4, 5⟩],
                 Name := "acqRing", Cnt := 3 },
    relRing := { cnt := 2, i := 0,
                 data := [Resource.rel (Resource.closer 1), Resource.rel (Resource.closer 2),
                          Resource.nil],
                 Name := "relRing", Cnt := 2 },
    clsRing := { toring := ring.zero, Name := "clsRing", Cnt := 0 } }

/-- Does handling `m` strand a waiter: a release of a closed closer while two or
more requests wait, with a factory that returns an error, so that the count is
lowered and a request stays parked. -/
def Msg.failsReplacement (m : Msg) (env : Env) (waits : List acquireMessage) : Bool :=
  match m with
  | Msg.rel x => decide (2 ≤ waits.length) && closedNow env x.r && env.factory.2.isSome
  | _ => false

/-- No factory call made to replace a closed resource fails while two or more
requests are parked, along the trace. -/
def Replaced : State → List (Env × Msg) → Bool
  | _, [] => true
  | st, (env, m) :: rest =>
    !m.failsReplacement env st.rp.activeWaits &&
    match step env st m with
    | some (st1, _) => Replaced st1 rest
    | none => true

/-- `Replaced`, read on queues. -/
def Model.Replaced : Model → List (Env × Msg) → Bool
  | _, [] => true
  | s, (env, m) :: rest =>
    !m.failsReplacement env s.activeWaits && Model.Replaced (s.step env m).1 rest

/-- A trace on a pool with `maxResources = 1` in which a replacement fails with
a single request parked: one caller is served with object 1, a second is
parked, object 1 is released closed and the factory fails to replace it; then a
third caller is served with object 4 and a fourth is parked. -/
def recoveredTrace : List (Env × Msg) :=
  [(Env.making (Resource.closer 1), Msg.acq ⟨0, 1⟩),
   (Env.making (Resource.closer 2), Msg.acq ⟨2, 3⟩),
   (Env.failing "no route" [Resource.closer 1], Msg.rel ⟨Resource.closer 1⟩),
   (Env.making (Resource.closer 4), Msg.acq ⟨4, 5⟩),
   (Env.making (Resource.closer 5), Msg.acq ⟨6, 7⟩)]

/-- A trace on a pool with `maxResources = 1`: one caller is served with object
1, two more are parked, then object 1 is released closed and the factory fails
to make a replacement. -/
def strandedTrace : List (Env × Msg) :=
  [(Env.making (Resource.closer 1), Msg.acq ⟨0, 1⟩),
   (Env.making (Resource.closer 2), Msg.acq ⟨2, 3⟩),
   (Env.making (Resource.closer 3), Msg.acq ⟨4, 5⟩),
   (Env.failing "no route" [Resource.closer 1], Msg.rel ⟨Resource.closer 1⟩)]

/-- The state of a process after `init` and `NewResourcePool(f, idleCapacity,
maxResources)`. -/
def initState (idleCapacity maxResources : Int) : Option State :=
  init.map (fun g => ⟨NewResourcePool idleCapacity maxResources, g.1, g.2.1, g.2.2⟩)

/-- The callers numbered `0 .. n-1`: for caller `k` the factory would make
object `k`, and a message built afresh would have the channels `1000 + 2k` and
`1001 + 2k`. -/
def manyCallers (n : Nat) : List (Env × acquireMessage) :=
  (List.range n).map (fun k => (Env.making (Resource.closer k), ⟨1000 + 2 * k, 1001 + 2 * k⟩))

/-- Does some step of the trace call the factory and get the resource `r` from
it. -/
def factoryMade (r : Resource) : State → List (Env × Msg) → Bool
  | _, [] => false
  | st, (env, m) :: rest =>
    match step env st m with
    | none => false
    | some (st1, out) =>
      (decide (Effect.factory ∈ out) && decide (env.factory = (r, none))) ||
      match m with
      | Msg.cls _ => false
      | _ => factoryMade r st1 rest

/-- A sample trace in which object 1 is closed and the factory returns object 1
again: it is released while a request is parked. -/
def sameObjectTrace : List (Env × Msg) :=
  [(Env.replacing (Resource.closer 1) [Resource.closer 1], Msg.rel ⟨Resource.closer 1⟩)]

/-- A trace on a pool with `maxResources = 1`: a caller is served with object
1, object 1 is released while it reports closed and nobody waits, then a new
caller acquires and the factory returns object 1, still closed. -/
def reissuedTrace : List (Env × Msg) :=
  [(Env.making (Resource.closer 1), Msg.acq ⟨0, 1⟩),
   (Env.replacing (Resource.closer 2) [Resource.closer 1], Msg.rel ⟨Resource.closer 1⟩),
   (Env.replacing (Resource.closer 1) [Resource.closer 1], Msg.acq ⟨2, 3⟩)]

/-! ## The ring -/

theorem goMod_natCast (a b : Nat) (hb : b ≠ 0) : goMod (a : Int) (b : Int) = some ((a % b : Nat) : Int) := by
  have h : Int.tmod (a : Int) (b : Int) = ((a % b : Nat) : Int) := (Int.ofNat_tmod a b).symm
  simp [goMod, hb, h]

theorem copyAt_zero_replicate (m : Nat) (src : List Resource) (h : src.length ≤ m) :
    copyAt (List.replicate m Resource.nil) 0 src =
      (src ++ List.replicate (m - src.length) Resource.nil, src.length) := by
  simp [copyAt, Nat.min_eq_right h]

theorem copyAt_append_replicate (a src : List Resource) (m : Nat) (h : src.length ≤ m) :
    copyAt (a ++ List.replicate m Resource.nil) a.length src =
      (a ++ src ++ List.replicate (m - src.length) Resource.nil, src.length) := by
  simp [copyAt, Nat.min_eq_right h]

theorem ring_growWithLock_full (c n m : Nat) (data : List Resource)
    (hlen : data.length = c) (hn : n ≤ c) (hm : c ≤ m) :
    ring.growWithLock ⟨c, n, data⟩ (m : Int) =
      some ⟨c, 0, data.drop n ++ data.take n ++ List.replicate (m - c) Resource.nil⟩ := by
  subst hlen
  have e1 : make (m : Int) = some (List.replicate m Resource.nil) := by simp [make]
  have e2 : sliceFrom data (n : Int) = some (data.drop n) := by simp [sliceFrom, hn]
  have e3 : copyAt (List.replicate m Resource.nil) 0 (data.drop n) =
      (data.drop n ++ List.replicate (m - (data.length - n)) Resource.nil, data.length - n) := by
    have := copyAt_zero_replicate m (data.drop n) (by simp; omega)
    simpa using this
  have e4 : sliceTo data ((data.length : Int) - ((data.length - n : Nat) : Int)) = some (data.take n) := by
    have : (data.length : Int) - ((data.length - n : Nat) : Int) = (n : Int) := by omega
    rw [this]; simp [sliceTo, hn]
  have e5 : copyAt (data.drop n ++ List.replicate (m - (data.length - n)) Resource.nil)
      (data.length - n) (data.take n) =
      (data.drop n ++ data.take n ++ List.replicate (m - data.length) Resource.nil, n) := by
    have := copyAt_append_replicate (data.drop n) (data.take n) (m - (data.length - n))
      (by simp; omega)
    simp only [List.length_drop, List.length_take, Nat.min_eq_left hn] at this
    rw [this]
    have : m - (data.length - n) - n = m - data.length := by omega
    rw [this]
  simp only [ring.growWithLock, e1, e2, e3, e4, e5, Option.bind_eq_bind, Option.some_bind]

theorem ring_Enqueue_full (c n : Nat) (data : List Resource) (x : Resource)
    (hlen : data.length = c) (hn : n ≤ c) :
    ring.Enqueue ⟨c, n, data⟩ x =
      some ⟨c + 1, 0, data.drop n ++ data.take n ++ x :: List.replicate c Resource.nil⟩ := by
  have h1 : (2 * (c : Int) + 1) = ((2 * c + 1 : Nat) : Int) := by push_cast; ring
  have hg := ring_growWithLock_full c n (2 * c + 1) data hlen hn (by omega)
  have hc : 2 * c + 1 - c = c + 1 := by omega
  rw [hc] at hg
  have hl : (data.drop n ++ data.take n ++ List.replicate (c + 1) Resource.nil).length = 2 * c + 1 := by
    simp; omega
  have hk : goMod ((0 : Int) + (c : Int)) ((2 * c + 1 : Nat) : Int) = some (c : Int) := by
    have := goMod_natCast c (2 * c + 1) (by omega)
    rw [Nat.mod_eq_of_lt (by omega)] at this
    simpa using this
  have hs : store (data.drop n ++ data.take n ++ List.replicate (c + 1) Resource.nil) (c : Int) x =
      some (data.drop n ++ data.take n ++ x :: List.replicate c Resource.nil) := by
    have hlen2 : (data.drop n ++ data.take n).length = c := by simp; omega
    simp only [store, hl]
    rw [if_pos (by constructor <;> omega)]
    congr 1
    rw [Int.toNat_ofNat, List.set_append_right _ _ (by omega), hlen2]
    simp [List.replicate_succ]
  simp only [ring.Enqueue, ge_iff_le, hlen, le_refl, if_true, h1, hg, Option.bind_eq_bind,
    Option.some_bind, hl, hk, hs]

theorem ring_Enqueue_notFull (c n : Nat) (data : List Resource) (x : Resource)
    (hc : c < data.length) :
    ring.Enqueue ⟨c, n, data⟩ x = some ⟨c + 1, n, data.set ((n + c) % data.length) x⟩ := by
  have hne : data.length ≠ 0 := by omega
  have h1 : ¬ ((data.length : Int) ≤ (c : Int)) := by omega
  have hk : goMod ((n : Int) + (c : Int)) (data.length : Int) =
      some (((n + c) % data.length : Nat) : Int) := by
    have := goMod_natCast (n + c) data.length hne
    simpa using this
  have hlt : (n + c) % data.length < data.length := Nat.mod_lt _ (by omega)
  have hs : store data (((n + c) % data.length : Nat) : Int) x =
      some (data.set ((n + c) % data.length) x) := by
    simp only [store]
    rw [if_pos (by constructor <;> omega), Int.toNat_ofNat]
  simp only [ring.Enqueue, ge_iff_le, h1, if_false, Option.bind_eq_bind, Option.some_bind, hk, hs]

theorem ring_Dequeue_natCast (c n : Nat) (data : List Resource) (hn : n < data.length) :
    ring.Dequeue ⟨c, n, data⟩ =
      some (data[n], ⟨(c : Int) - 1, (((n + 1) % data.length : Nat) : Int), data⟩) := by
  have hne : data.length ≠ 0 := by omega
  have hp : index data (n : Int) = some data[n] := by
    simp [index, List.getElem?_eq_getElem hn]
  have hk : goMod ((n : Int) + 1) (data.length : Int) = some (((n + 1) % data.length : Nat) : Int) := by
    have := goMod_natCast (n + 1) data.length hne
    simpa using this
  simp only [ring.Dequeue, ring.peekWithLock, hp, hk, Option.bind_eq_bind, Option.some_bind]

theorem rotate_set_add (l : List Resource) (n k : Nat) (x : Resource) (hk : k < l.length) :
    (l.set ((n + k) % l.length) x).rotate n = (l.rotate n).set k x := by
  apply List.ext_getElem?
  intro m
  by_cases hm : m < l.length
  · have hmod : (n + k) % l.length = (m + n) % l.length ↔ k = m := by
      constructor
      · intro h
        have h1 : (n + k) ≡ (n + m) [MOD l.length] := by
          rw [Nat.add_comm n m]; exact h
        have h2 := Nat.ModEq.add_left_cancel' n h1
        have h3 : k % l.length = m % l.length := h2
        rwa [Nat.mod_eq_of_lt hk, Nat.mod_eq_of_lt hm] at h3
      · intro h; subst h; rw [Nat.add_comm]
    rw [List.getElem?_rotate (by simpa using hm), List.length_set, List.getElem?_set,
      List.getElem?_set, List.getElem?_rotate hm, List.length_rotate]
    by_cases hkm : k = m
    · rw [if_pos (hmod.2 hkm), if_pos hkm, if_pos (Nat.mod_lt _ (by omega)), if_pos hk]
    · rw [if_neg (fun h => hkm (hmod.1 h)), if_neg hkm]
  · have h1 : ((l.set ((n + k) % l.length) x).rotate n).length ≤ m := by simp; omega
    have h2 : ((l.rotate n).set k x).length ≤ m := by simp; omega
    rw [List.getElem?_eq_none h1, List.getElem?_eq_none h2]

theorem ring_toList_natCast (c n : Nat) (data : List Resource) :
    ring.toList ⟨c, n, data⟩ = (data.rotate n).take c := by
  simp [ring.toList]

/-- An enqueue on a well-formed ring succeeds, keeps it well-formed and appends
to the queue it stands for. -/
theorem ring_Enqueue_spec (rb : ring) (x : Resource) (h : rb.WF) :
    ∃ rb1, rb.Enqueue x = some rb1 ∧ rb1.WF ∧ rb1.toList = rb.toList ++ [x] := by
  obtain ⟨cnt, i, data⟩ := rb
  obtain ⟨h0, h1, h2, h3⟩ := h
  simp only at h0 h1 h2 h3
  lift cnt to ℕ using h0
  lift i to ℕ using h2
  have hc : cnt ≤ data.length := by exact_mod_cast h1
  have hi : i ≤ data.length := by
    rcases h3 with h3 | ⟨h3, _⟩
    · have : i < data.length := by exact_mod_cast h3
      omega
    · have : i = 0 := by exact_mod_cast h3
      omega
  rcases Nat.lt_or_ge cnt data.length with hlt | hge
  · refine ⟨_, ring_Enqueue_notFull cnt i data x hlt, ?_, ?_⟩
    · refine ⟨by positivity, ?_, by positivity, ?_⟩
      · simp only [List.length_set]; exact_mod_cast hlt
      · left
        simp only [List.length_set]
        rcases h3 with h3 | ⟨_, h3⟩
        · exact h3
        · subst h3; simp at hlt
    · have e : ((cnt : Int) + 1) = ((cnt + 1 : Nat) : Int) := by push_cast; rfl
      rw [e, ring_toList_natCast, ring_toList_natCast, rotate_set_add _ _ _ _ hlt]
      have hl : cnt < (data.rotate i).length := by simpa using hlt
      rw [List.take_succ, List.getElem?_set_self hl]
      congr 1
      apply List.ext_getElem?
      intro m
      by_cases hm : m < cnt
      · rw [List.getElem?_take_of_lt hm, List.getElem?_take_of_lt hm,
          List.getElem?_set_ne (by omega)]
      · rw [List.getElem?_eq_none (by simp; omega), List.getElem?_eq_none (by simp; omega)]
  · have hceq : data.length = cnt := by omega
    refine ⟨_, ring_Enqueue_full cnt i data x hceq (by omega), ?_, ?_⟩
    · refine ⟨by positivity, ?_, le_refl _, ?_⟩
      · simp only [List.length_append, List.length_drop, List.length_take, List.length_cons,
          List.length_replicate]
        push_cast
        omega
      · left
        simp only [List.length_append, List.length_drop, List.length_take, List.length_cons,
          List.length_replicate]
        push_cast
        omega
    · have e : ((cnt : Int) + 1) = ((cnt + 1 : Nat) : Int) := by push_cast; rfl
      have e0 : (0 : Int) = ((0 : Nat) : Int) := rfl
      rw [e, e0, ring_toList_natCast, ring_toList_natCast, List.rotate_zero,
        List.rotate_eq_drop_append_take hi]
      have hl : (data.drop i ++ data.take i).length = cnt := by simp; omega
      rw [List.take_of_length_le (by omega : (data.drop i ++ data.take i).length ≤ cnt)]
      rw [List.take_append_eq_append_take, hl]
      simp [List.take_of_length_le (by omega : (data.drop i ++ data.take i).length ≤ cnt + 1)]

theorem ring_length_toList (rb : ring) (h : rb.WF) : (rb.toList.length : Int) = rb.cnt := by
  obtain ⟨cnt, i, data⟩ := rb
  obtain ⟨h0, h1, h2, _⟩ := h
  simp only at h0 h1 h2
  lift cnt to ℕ using h0
  lift i to ℕ using h2
  have hc : cnt ≤ data.length := by exact_mod_cast h1
  rw [ring_toList_natCast]
  simp [hc]

theorem ring_Empty_iff (rb : ring) (h : rb.WF) : rb.Empty = true ↔ rb.toList = [] := by
  have hl := ring_length_toList rb h
  simp only [ring.Empty, beq_iff_eq]
  constructor
  · intro h0
    rw [h0] at hl
    exact List.length_eq_zero.1 (by exact_mod_cast hl)
  · intro h0
    rw [h0] at hl
    simpa using hl.symm

theorem ring_Size_eq (rb : ring) (h : rb.WF) : rb.Size = (rb.toList.length : Int) :=
  (ring_length_toList rb h).symm

/-- A dequeue on a well-formed, non-empty ring succeeds, returns what `Peek`
returns, keeps the ring well-formed and removes the head of the queue. -/
theorem ring_Dequeue_spec (rb : ring) (h : rb.WF) (hne : rb.Empty = false) :
    ∃ x rb1, rb.Dequeue = some (x, rb1) ∧ rb.Peek = some x ∧ rb1.WF ∧
      rb.toList = x :: rb1.toList := by
  obtain ⟨cnt, i, data⟩ := rb
  obtain ⟨h0, h1, h2, h3⟩ := h
  simp only at h0 h1 h2 h3
  simp only [ring.Empty, beq_eq_false_iff_ne, ne_eq] at hne
  lift cnt to ℕ using h0
  lift i to ℕ using h2
  have hc : cnt ≤ data.length := by exact_mod_cast h1
  have hc0 : cnt ≠ 0 := by exact_mod_cast hne
  have hi : i < data.length := by
    rcases h3 with h3 | ⟨_, h3⟩
    · exact_mod_cast h3
    · subst h3; simp at hc; omega
  have hD := ring_Dequeue_natCast cnt i data hi
  have hP : ring.Peek ⟨cnt, i, data⟩ = some data[i] := by
    simp [ring.Peek, ring.peekWithLock, index, List.getElem?_eq_getElem hi]
  refine ⟨_, _, hD, hP, ?_, ?_⟩
  · refine ⟨by simp only; omega, by simp only; omega, by positivity, ?_⟩
    left
    simp only
    exact_mod_cast Nat.mod_lt _ (by omega)
  · have e : ((cnt : Int) - 1) = ((cnt - 1 : Nat) : Int) := by omega
    rw [e, ring_toList_natCast, ring_toList_natCast, List.rotate_mod,
      ← List.rotate_rotate, List.rotate_eq_drop_append_take (le_of_lt hi)]
    have hd : data.drop i = data[i] :: data.drop (i + 1) := List.drop_eq_getElem_cons hi
    rw [hd, List.cons_append, List.rotate_cons_succ, List.rotate_zero]
    obtain ⟨k, rfl⟩ : ∃ k, cnt = k + 1 := ⟨cnt - 1, by omega⟩
    have hl : (data.drop (i + 1) ++ data.take i).length = data.length - 1 := by
      simp; omega
    have ht : List.take k (data.drop (i + 1) ++ data.take i ++ [data[i]]) =
        List.take k (data.drop (i + 1) ++ data.take i) :=
      List.take_append_of_le_length (by omega)
    rw [List.take_succ_cons, Nat.add_sub_cancel, ht]

/-- One call on a well-formed ring does what the list model does. -/
theorem ring_call_spec (rb : ring) (op : RingOp) (q1 : List Resource) (ret : RingRet)
    (h : rb.WF) (hq : Fifo.call rb.toList op = some (q1, ret)) :
    ∃ rb1, rb.call op = some (rb1, ret) ∧ rb1.WF ∧ rb1.toList = q1 := by
  cases op with
  | Enqueue x =>
    obtain ⟨rb1, hE, hW, hL⟩ := ring_Enqueue_spec rb x h
    simp only [Fifo.call, Option.some.injEq, Prod.mk.injEq] at hq
    obtain ⟨hq1, hq2⟩ := hq
    exact ⟨rb1, by simp [ring.call, hE, hq2], hW, by rw [hL, hq1]⟩
  | Dequeue =>
    cases hl : rb.toList with
    | nil => rw [hl] at hq; simp [Fifo.call] at hq
    | cons y rest =>
      rw [hl] at hq
      simp only [Fifo.call, Option.some.injEq, Prod.mk.injEq] at hq
      obtain ⟨hq1, hq2⟩ := hq
      have hne : rb.Empty = false := by
        cases hE : rb.Empty with
        | false => rfl
        | true => rw [(ring_Empty_iff rb h).1 hE] at hl; simp at hl
      obtain ⟨x, rb1, hD, _, hW, hL⟩ := ring_Dequeue_spec rb h hne
      rw [hl] at hL
      simp only [List.cons.injEq] at hL
      refine ⟨rb1, by simp [ring.call, hD, ← hq2, hL.1], hW, by rw [← hL.2, hq1]⟩
  | Peek =>
    cases hl : rb.toList with
    | nil => rw [hl] at hq; simp [Fifo.call] at hq
    | cons y rest =>
      rw [hl] at hq
      simp only [Fifo.call, Option.some.injEq, Prod.mk.injEq] at hq
      obtain ⟨hq1, hq2⟩ := hq
      have hne : rb.Empty = false := by
        cases hE : rb.Empty with
        | false => rfl
        | true => rw [(ring_Empty_iff rb h).1 hE] at hl; simp at hl
      obtain ⟨x, rb1, _, hP, _, hL⟩ := ring_Dequeue_spec rb h hne
      rw [hl] at hL
      simp only [List.cons.injEq] at hL
      refine ⟨rb, by simp [ring.call, hP, ← hq2, hL.1], h, by rw [hl, hq1]⟩
  | Size =>
    simp only [Fifo.call, Option.some.injEq, Prod.mk.injEq] at hq
    obtain ⟨hq1, hq2⟩ := hq
    exact ⟨rb, by simp [ring.call, ring_Size_eq rb h, hq2], h, hq1⟩
  | Empty =>
    simp only [Fifo.call, Option.some.injEq, Prod.mk.injEq] at hq
    obtain ⟨hq1, hq2⟩ := hq
    refine ⟨rb, ?_, h, hq1⟩
    have he : rb.Empty = (rb.toList.length == 0) := by
      have hl := ring_length_toList rb h
      cases hE : rb.Empty with
      | true => rw [(ring_Empty_iff rb h).1 hE]; rfl
      | false =>
        have : rb.toList ≠ [] := fun hn => by
          rw [(ring_Empty_iff rb h).2 hn] at hE; simp at hE
        have : rb.toList.length ≠ 0 := fun h0 => this (List.length_eq_zero.1 h0)
        simp [this]
    simp [ring.call, he, hq2]

theorem ring_calls_spec (rb : ring) (ops : List RingOp) (q1 : List Resource)
    (rets : List RingRet) (h : rb.WF) (hq : Fifo.calls rb.toList ops = some (q1, rets)) :
    ∃ rb1, rb.calls ops = some (rb1, rets) ∧ rb1.WF ∧ rb1.toList = q1 := by
  induction ops generalizing rb q1 rets with
  | nil =>
    simp only [Fifo.calls, Option.some.injEq, Prod.mk.injEq] at hq
    exact ⟨rb, by simp [ring.calls, hq.2], h, hq.1⟩
  | cons op ops ih =>
    simp only [Fifo.calls] at hq
    cases hc : Fifo.call rb.toList op with
    | none => rw [hc] at hq; simp at hq
    | some p =>
      obtain ⟨q2, ret⟩ := p
      rw [hc] at hq
      simp only at hq
      cases hcs : Fifo.calls q2 ops with
      | none => rw [hcs] at hq; simp at hq
      | some p2 =>
        obtain ⟨q3, rets2⟩ := p2
        rw [hcs] at hq
        simp only [Option.some.injEq, Prod.mk.injEq] at hq
        obtain ⟨rb1, hC, hW, hL⟩ := ring_call_spec rb op q2 ret h hc
        obtain ⟨rb2, hC2, hW2, hL2⟩ := ih rb1 q3 rets2 hW (by rw [hL]; exact hcs)
        refine ⟨rb2, ?_, hW2, by rw [hL2, hq.1]⟩
        simp only [ring.calls, hC, hC2, hq.2]

/-- The list model admits every call that the caller guards. -/
theorem Fifo_call_guarded (rb : ring) (op : RingOp) (h : rb.WF)
    (hg : (match op with
      | RingOp.Dequeue => !rb.Empty
      | RingOp.Peek => !rb.Empty
      | _ => true) = true) :
    ∃ p, Fifo.call rb.toList op = some p := by
  have hne : rb.Empty = false → ∃ y rest, rb.toList = y :: rest := by
    intro hE
    cases hl : rb.toList with
    | nil => rw [(ring_Empty_iff rb h).2 hl] at hE; simp at hE
    | cons y rest => exact ⟨y, rest, rfl⟩
  cases op with
  | Enqueue x => exact ⟨_, rfl⟩
  | Dequeue =>
    obtain ⟨y, rest, hl⟩ := hne (by simpa using hg)
    exact ⟨_, by rw [hl]; rfl⟩
  | Peek =>
    obtain ⟨y, rest, hl⟩ := hne (by simpa using hg)
    exact ⟨_, by rw [hl]; rfl⟩
  | Size => exact ⟨_, rfl⟩
  | Empty => exact ⟨_, rfl⟩

theorem ring_guarded_spec (rb : ring) (ops : List RingOp) (h : rb.WF)
    (hg : rb.guarded ops = true) :
    ∃ q rets, Fifo.calls rb.toList ops = some (q, rets) := by
  induction ops generalizing rb with
  | nil => exact ⟨_, _, rfl⟩
  | cons op ops ih =>
    simp only [ring.guarded, Bool.and_eq_true] at hg
    obtain ⟨hg1, hg2⟩ := hg
    obtain ⟨⟨q1, ret⟩, hF⟩ := Fifo_call_guarded rb op h hg1
    obtain ⟨rb1, hC, hW, hL⟩ := ring_call_spec rb op q1 ret h hF
    rw [hC] at hg2
    obtain ⟨q2, rets, hF2⟩ := ih rb1 hW hg2
    rw [hL] at hF2
    exact ⟨q2, ret :: rets, by simp only [Fifo.calls, hF, hF2]⟩

/-! ## The coordinator read on queues -/

theorem namedRing_put_spec (r : namedRing) (m : Resource) (h : r.toring.WF) :
    ∃ r1, r.put m = some r1 ∧ r1.toring.WF ∧ r1.toring.toList = r.toring.toList ++ [m] := by
  obtain ⟨rb, hE, hW, hL⟩ := ring_Enqueue_spec r.toring m h
  refine ⟨{ r with Cnt := r.Cnt + 1, toring := rb }, ?_, hW, hL⟩
  simp [namedRing.put, hE]

theorem acquireLoop_spec (env : Env) (fuel : Nat) (rp : ResourcePool)
    (h : rp.idleResources.WF) (hf : rp.idleResources.toList.length < fuel) :
    ∃ rb, acquireLoop env fuel rp =
        some ({ rp with idleResources := rb, numResources := rp.numResources -
            ((rp.idleResources.toList.takeWhile (closedNow env)).length : Int) },
          (rp.idleResources.toList.dropWhile (closedNow env)).head?) ∧
      rb.WF ∧ rb.toList = (rp.idleResources.toList.dropWhile (closedNow env)).tail := by
  induction fuel generalizing rp with
  | zero => omega
  | succ fuel ih =>
    by_cases hE : rp.idleResources.Empty = true
    · have hq := (ring_Empty_iff _ h).1 hE
      refine ⟨rp.idleResources, ?_, h, ?_⟩
      · simp [acquireLoop, hE, hq]
      · simp [hq]
    · have hE2 : rp.idleResources.Empty = false := by simpa using hE
      obtain ⟨x, rb1, hD, _, hW1, hL1⟩ := ring_Dequeue_spec _ h hE2
      by_cases hc : closedNow env x = true
      · have hf1 : rb1.toList.length < fuel := by
          rw [hL1] at hf; simp at hf; omega
        obtain ⟨rb, hA, hW, hL⟩ := ih ⟨rb1, rp.idleCapacity, rp.maxResources,
          rp.numResources - 1, rp.activeWaits⟩ hW1 hf1
        refine ⟨rb, ?_, hW, ?_⟩
        · have hc2 : (!x.isCloser || !env.IsClosed x) = false := by
            simp only [closedNow, Bool.and_eq_true] at hc
            simp [hc.1, hc.2]
          simp only [acquireLoop, hE2, Bool.not_false, if_true, hD, Option.bind_eq_bind,
            Option.some_bind, hc2, Bool.false_eq_true, if_false, hA, hL1,
            List.takeWhile_cons, hc, List.dropWhile_cons, List.length_cons]
          congr 3
          push_cast
          ring
        · rw [hL, hL1]; simp [List.dropWhile_cons, hc]
      · refine ⟨rb1, ?_, hW1, ?_⟩
        · have hc2 : (!x.isCloser || !env.IsClosed x) = true := by
            simp only [closedNow, Bool.and_eq_true, not_and, Bool.not_eq_true] at hc
            cases hx : x.isCloser <;> simp [hx] at hc ⊢
            exact hc
          simp only [acquireLoop, hE2, Bool.not_false, if_true, hD, Option.bind_eq_bind,
            Option.some_bind, hc2, hL1, List.takeWhile_cons, hc, List.dropWhile_cons]
          simp
        · rw [hL1]; simp [List.dropWhile_cons, hc]

theorem drainLoop_spec (fuel : Nat) (rb : ring) (h : rb.WF) (hf : rb.toList.length < fuel) :
    ∃ rb1, drainLoop fuel rb =
        some (rb1, (rb.toList.filter Resource.isCloser).map Effect.close) ∧
      rb1.WF ∧ rb1.toList = [] := by
  induction fuel generalizing rb with
  | zero => omega
  | succ fuel ih =>
    by_cases hE : rb.Empty = true
    · have hq := (ring_Empty_iff _ h).1 hE
      exact ⟨rb, by simp [drainLoop, hE, hq], h, hq⟩
    · have hE2 : rb.Empty = false := by simpa using hE
      obtain ⟨x, rb1, hD, _, hW1, hL1⟩ := ring_Dequeue_spec _ h hE2
      have hf1 : rb1.toList.length < fuel := by
        rw [hL1] at hf; simp at hf; omega
      obtain ⟨rb2, hA, hW, hL⟩ := ih rb1 hW1 hf1
      refine ⟨rb2, ?_, hW, hL⟩
      simp only [drainLoop, hE2, Bool.not_false, if_true, hD, Option.bind_eq_bind,
        Option.some_bind, hA, hL1, List.filter_cons]
      cases hx : x.isCloser <;> simp

theorem ring_fuel (rb : ring) (h : rb.WF) : rb.toList.length < rb.cnt.toNat + 1 := by
  have := ring_length_toList rb h
  omega

theorem muxAcq_model (env : Env) (st : State) (acq : acquireMessage) (h : st.WF) :
    ∃ st1, muxAcq env st acq = some (st1, (st.model.step env (Msg.acq acq)).2) ∧ st1.WF ∧
      st1.model = (st.model.step env (Msg.acq acq)).1 := by
  obtain ⟨hI, hA, hR, hC⟩ := h
  obtain ⟨rb, hL, hW, hT⟩ := acquireLoop_spec env _ st.rp hI (ring_fuel _ hI)
  obtain ⟨ar, hP, hPW, hPL⟩ := namedRing_put_spec st.acqRing (Resource.acq acq) hA
  simp only [muxAcq, ResourcePool.acquire, hL, Option.bind_eq_bind, Option.some_bind,
    Model.step, State.model]
  cases hq : st.rp.idleResources.toList.dropWhile (closedNow env) with
  | cons r rest =>
    rw [hq] at hT
    simp only [List.head?_cons, Option.some_bind, hP]
    refine ⟨_, rfl, ⟨hW, hPW, hR, hC⟩, ?_⟩
    simp [hT, hPL]
  | nil =>
    rw [hq] at hT
    simp only [List.head?_nil]
    by_cases hmax : (st.rp.maxResources != -1 && decide (st.rp.numResources -
        ((st.rp.idleResources.toList.takeWhile (closedNow env)).length : Int) ≥
          st.rp.maxResources)) = true
    · simp only [hmax, if_true, Option.some_bind, hP]
      refine ⟨_, rfl, ⟨hW, hPW, hR, hC⟩, ?_⟩
      simp [hT, hPL]
    · simp only [hmax, if_false]
      rcases hfac : env.factory with ⟨r, _ | err⟩
      · simp only [Option.some_bind, hP]
        refine ⟨_, rfl, ⟨hW, hPW, hR, hC⟩, ?_⟩
        simp [hT, hPL]
      · simp only [Option.some_bind, hP]
        refine ⟨_, rfl, ⟨hW, hPW, hR, hC⟩, ?_⟩
        simp [hT, hPL]

theorem closedNow_not (env : Env) (r : Resource) :
    (!r.isCloser || !env.IsClosed r) = !closedNow env r := by
  simp [closedNow]

theorem muxRel_model (env : Env) (st : State) (rel : releaseMessage) (h : st.WF) :
    ∃ st1, muxRel env st rel = some (st1, (st.model.step env (Msg.rel rel)).2) ∧ st1.WF ∧
      st1.model = (st.model.step env (Msg.rel rel)).1 := by
  obtain ⟨hI, hA, hR, hC⟩ := h
  obtain ⟨rr, hP, hPW, hPL⟩ := namedRing_put_spec st.relRing (Resource.rel rel.r) hR
  simp only [muxRel, Option.bind_eq_bind, Model.step, State.model, closedNow_not]
  cases hw : st.rp.activeWaits with
  | cons w rest =>
    simp only
    by_cases hc : closedNow env rel.r = true
    · simp only [hc, Bool.not_true, Bool.false_eq_true, if_false]
      rcases hfac : env.factory with ⟨r, _ | err⟩
      · simp only [Option.some_bind, hP]
        exact ⟨_, rfl, ⟨hI, hA, hPW, hC⟩, by simp [hPL]⟩
      · simp only [Option.some_bind, hP]
        exact ⟨_, rfl, ⟨hI, hA, hPW, hC⟩, by simp [hPL]⟩
    · have hc2 : closedNow env rel.r = false := by simpa using hc
      simp only [hc2, Bool.not_false, if_true, Option.some_bind, hP]
      exact ⟨_, rfl, ⟨hI, hA, hPW, hC⟩, by simp [hPL]⟩
  | nil =>
    simp only [ResourcePool.release]
    have hcl : (rel.r.isCloser && env.IsClosed rel.r) = closedNow env rel.r := rfl
    rw [hcl]
    by_cases h1 : (rel.r == Resource.nil || closedNow env rel.r) = true
    · simp only [h1, if_true, Option.some_bind, hP]
      exact ⟨_, rfl, ⟨hI, hA, hPW, hC⟩, by simp [hPL, hw]⟩
    · simp only [h1, if_false]
      rw [ring_Size_eq _ hI]
      by_cases h2 : (st.rp.idleCapacity != -1 &&
          ((st.rp.idleResources.toList.length : Int) == st.rp.idleCapacity)) = true
      · simp only [h2, if_true, Option.some_bind, hP]
        exact ⟨_, rfl, ⟨hI, hA, hPW, hC⟩, by simp [hPL, hw]⟩
      · obtain ⟨rb, hE, hEW, hEL⟩ := ring_Enqueue_spec st.rp.idleResources rel.r hI
        simp only [h2, if_false, hE, Option.some_bind, hP]
        exact ⟨_, rfl, ⟨hEW, hA, hPW, hC⟩, by simp [hPL, hEL, hw]⟩

theorem muxCls_model (env : Env) (st : State) (cm : closeMessage) (h : st.WF) :
    ∃ st1, muxCls st cm = some (st1, (st.model.step env (Msg.cls cm)).2) ∧ st1.WF ∧
      st1.model = (st.model.step env (Msg.cls cm)).1 := by
  obtain ⟨hI, hA, hR, hC⟩ := h
  obtain ⟨cr, hP, hPW, hPL⟩ := namedRing_put_spec st.clsRing Resource.cls hC
  obtain ⟨rb, hD, hDW, hDL⟩ := drainLoop_spec _ st.rp.idleResources hI (ring_fuel _ hI)
  simp only [muxCls, hP, hD, Option.bind_eq_bind, Option.some_bind, Model.step, State.model]
  exact ⟨_, rfl, ⟨hDW, hA, hR, hPW⟩, by simp [hPL, hDL]⟩

/-- On a well-formed state `step` returns, keeps the state well-formed, and
acts on the queues as `Model.step` says. -/
theorem step_model (env : Env) (st : State) (m : Msg) (h : st.WF) :
    ∃ st1, step env st m = some (st1, (st.model.step env m).2) ∧ st1.WF ∧
      st1.model = (st.model.step env m).1 := by
  cases m with
  | acq a => exact muxAcq_model env st a h
  | rel r => exact muxRel_model env st r h
  | cls c => exact muxCls_model env st c h

/-- On a well-formed state `mux` returns on every list of messages, and acts on
the queues as `Model.mux` says. -/
theorem mux_model (st : State) (held : List Resource) (trace : List (Env × Msg)) (h : st.WF) :
    ∃ st1, mux st held trace =
        some (st1, (st.model.mux held trace).2.1, (st.model.mux held trace).2.2) ∧ st1.WF ∧
      st1.model = (st.model.mux held trace).1 := by
  induction trace generalizing st held with
  | nil => exact ⟨st, rfl, h, rfl⟩
  | cons em rest ih =>
    obtain ⟨env, m⟩ := em
    obtain ⟨st1, hS, hW, hM⟩ := step_model env st m h
    cases m with
    | cls c =>
      refine ⟨st1, ?_, hW, ?_⟩
      · simp only [mux, hS, Model.mux]
      · simp only [Model.mux, hM]
    | acq a =>
      obtain ⟨st2, hS2, hW2, hM2⟩ := ih st1 (checkedOut held (Msg.acq a)
        (st.model.step env (Msg.acq a)).2) hW
      refine ⟨st2, ?_, hW2, ?_⟩
      · simp only [mux, hS, Model.mux, hS2, hM]
      · simp only [Model.mux, hM2, hM]
    | rel r =>
      obtain ⟨st2, hS2, hW2, hM2⟩ := ih st1 (checkedOut held (Msg.rel r)
        (st.model.step env (Msg.rel r)).2) hW
      refine ⟨st2, ?_, hW2, ?_⟩
      · simp only [mux, hS, Model.mux, hS2, hM]
      · simp only [Model.mux, hM2, hM]

theorem Returned_model (st : State) (held : List Resource) (trace : List (Env × Msg))
    (h : st.WF) : Returned st held trace = st.model.Returned held trace := by
  induction trace generalizing st held with
  | nil => simp [Returned, Model.Returned]
  | cons em rest ih =>
    obtain ⟨env, m⟩ := em
    obtain ⟨st1, hS, hW, hM⟩ := step_model env st m h
    simp only [Returned, Model.Returned, hS, ih st1 _ hW, hM]

theorem ring_zero_WF : ring.zero.WF := by
  simp [ring.WF, ring.zero]

theorem State.fresh_isNew (ic mx : Int) : (State.fresh ic mx).isNew ic mx :=
  ⟨rfl, ring_zero_WF, ring_zero_WF, ring_zero_WF, ring_zero_WF⟩

theorem State.isNew_model (st : State) (ic mx : Int) (h : st.isNew ic mx) :
    st.model.idle = [] ∧ st.model.idleCapacity = ic ∧ st.model.maxResources = mx ∧
      st.model.numResources = 0 ∧ st.model.activeWaits = [] := by
  obtain ⟨h1, _⟩ := h
  simp [State.model, h1, NewResourcePool, ring.zero, ring.toList]

/-! ## Invariants of the coordinator, on queues -/

theorem Model.step_idleCapacity (env : Env) (s : Model) (m : Msg) :
    (s.step env m).1.idleCapacity = s.idleCapacity := by
  cases m <;> simp only [Model.step] <;> repeat' split
  all_goals rfl

theorem Model.step_maxResources (env : Env) (s : Model) (m : Msg) :
    (s.step env m).1.maxResources = s.maxResources := by
  cases m <;> simp only [Model.step] <;> repeat' split
  all_goals rfl

theorem takeWhile_length_add (p : Resource → Bool) (l : List Resource) :
    ((l.takeWhile p).length : Int) + ((l.dropWhile p).length : Int) = (l.length : Int) := by
  have := congrArg List.length (List.takeWhile_append_dropWhile p l)
  rw [List.length_append] at this
  exact_mod_cast this

theorem Model.step_num_le (env : Env) (s : Model) (m : Msg) (hmx : 0 ≤ s.maxResources)
    (h : s.numResources ≤ s.maxResources) :
    (s.step env m).1.numResources ≤ s.maxResources := by
  have hk : (0 : Int) ≤ ((s.idle.takeWhile (closedNow env)).length : Int) := by positivity
  cases m with
  | acq a =>
    simp only [Model.step]
    split
    · simp only; omega
    · split
      · simp only; omega
      · rename_i hpark
        simp only [Bool.and_eq_true, bne_iff_ne, ne_eq, decide_eq_true_eq, not_and, not_le] at hpark
        have := hpark (by omega)
        split <;> simp only <;> omega
  | rel r =>
    simp only [Model.step]
    repeat' split
    all_goals simp only
    all_goals omega
  | cls c =>
    simp only [Model.step]
    exact h

theorem Model.step_idle_le (env : Env) (s : Model) (m : Msg)
    (h : (s.idle.length : Int) ≤ s.idleCapacity) :
    ((s.step env m).1.idle.length : Int) ≤ s.idleCapacity := by
  have hd := takeWhile_length_add (closedNow env) s.idle
  have hk : (0 : Int) ≤ ((s.idle.takeWhile (closedNow env)).length : Int) := by positivity
  cases m with
  | acq a =>
    simp only [Model.step]
    split
    · rename_i r rest hq
      rw [hq] at hd
      simp only [List.length_cons] at hd ⊢
      push_cast at hd
      omega
    · repeat' split
      all_goals simp only [List.length_nil]
      all_goals omega
  | rel r =>
    simp only [Model.step]
    split
    · repeat' split
      all_goals simp only
      all_goals exact h
    · split
      · exact h
      · split
        · exact h
        · rename_i hfull
          simp only [Bool.and_eq_true, bne_iff_ne, ne_eq, beq_iff_eq, not_and] at hfull
          have := hfull (by omega)
          simp only [List.length_append, List.length_singleton]
          push_cast
          omega
  | cls c =>
    simp only [Model.step, List.length_nil]
    omega

theorem Model.mux_num_le (s : Model) (held : List Resource) (trace : List (Env × Msg))
    (hmx : 0 ≤ s.maxResources) (h : s.numResources ≤ s.maxResources) :
    (s.mux held trace).1.numResources ≤ s.maxResources := by
  induction trace generalizing s held with
  | nil => exact h
  | cons em rest ih =>
    obtain ⟨env, m⟩ := em
    have h1 := Model.step_num_le env s m hmx h
    have h2 := Model.step_maxResources env s m
    cases m with
    | cls c => simpa [Model.mux] using h1
    | acq a =>
      have := ih (s.step env (Msg.acq a)).1 (checkedOut held (Msg.acq a)
        (s.step env (Msg.acq a)).2) (by rw [h2]; exact hmx) (by rw [h2]; exact h1)
      rw [h2] at this
      simpa [Model.mux] using this
    | rel r =>
      have := ih (s.step env (Msg.rel r)).1 (checkedOut held (Msg.rel r)
        (s.step env (Msg.rel r)).2) (by rw [h2]; exact hmx) (by rw [h2]; exact h1)
      rw [h2] at this
      simpa [Model.mux] using this

theorem Model.mux_idle_le (s : Model) (held : List Resource) (trace : List (Env × Msg))
    (h : (s.idle.length : Int) ≤ s.idleCapacity) :
    ((s.mux held trace).1.idle.length : Int) ≤ s.idleCapacity := by
  induction trace generalizing s held with
  | nil => exact h
  | cons em rest ih =>
    obtain ⟨env, m⟩ := em
    have h1 := Model.step_idle_le env s m h
    have h2 := Model.step_idleCapacity env s m
    cases m with
    | cls c => simpa [Model.mux] using h1
    | acq a =>
      have := ih (s.step env (Msg.acq a)).1 (checkedOut held (Msg.acq a)
        (s.step env (Msg.acq a)).2) (by rw [h2]; exact h1)
      rw [h2] at this
      simpa [Model.mux] using this
    | rel r =>
      have := ih (s.step env (Msg.rel r)).1 (checkedOut held (Msg.rel r)
        (s.step env (Msg.rel r)).2) (by rw [h2]; exact h1)
      rw [h2] at this
      simpa [Model.mux] using this

theorem delivered_append (a b : List Effect) : delivered (a ++ b) = delivered a ++ delivered b := by
  induction a with
  | nil => rfl
  | cons e es ih => cases e <;> simp [delivered, ih]

/-- Conservation on queues: a message other than a close keeps
`numResources = |idle| + |checked out|`, provided a release returns a
checked-out resource. -/
theorem Model.step_conserved (env : Env) (s : Model) (held : List Resource) (m : Msg)
    (hm : m.returns held = true)
    (h : s.numResources = (s.idle.length : Int) + (held.length : Int)) :
    (s.step env m).1.numResources =
      ((s.step env m).1.idle.length : Int) +
        ((checkedOut held m (s.step env m).2).length : Int) := by
  have hd := takeWhile_length_add (closedNow env) s.idle
  cases m with
  | cls c => simp [Msg.returns] at hm
  | acq a =>
    simp only [Model.step, checkedOut]
    split
    · rename_i r rest hq
      rw [hq] at hd
      simp only [List.length_cons, delivered, List.length_append, List.length_nil] at hd ⊢
      push_cast at hd ⊢
      omega
    · rename_i hq
      rw [hq] at hd
      simp only [List.length_nil] at hd
      repeat' split
      all_goals simp only [delivered, List.length_append, List.length_nil, List.length_cons]
      all_goals push_cast
      all_goals omega
  | rel r =>
    simp only [Msg.returns, decide_eq_true_eq] at hm
    have he : ((held.erase r.r).length : Int) = (held.length : Int) - 1 := by
      have h1 := List.length_erase_of_mem hm
      have h2 : 0 < held.length := List.length_pos_of_mem hm
      omega
    simp only [Model.step, checkedOut]
    repeat' split
    all_goals simp only [delivered, List.length_append, List.length_nil, List.length_cons]
    all_goals push_cast
    all_goals omega

theorem Model.mux_conserved (s : Model) (held : List Resource) (trace : List (Env × Msg))
    (hr : s.Returned held trace = true)
    (h : s.numResources = (s.idle.length : Int) + (held.length : Int)) :
    (s.mux held trace).1.numResources =
      ((s.mux held trace).1.idle.length : Int) + ((s.mux held trace).2.1.length : Int) := by
  induction trace generalizing s held with
  | nil => exact h
  | cons em rest ih =>
    obtain ⟨env, m⟩ := em
    simp only [Model.Returned, Bool.and_eq_true] at hr
    obtain ⟨hm, hrest⟩ := hr
    have h1 := Model.step_conserved env s held m hm h
    cases m with
    | cls c => simp [Msg.returns] at hm
    | acq a => simpa [Model.mux] using ih _ _ hrest h1
    | rel r => simpa [Model.mux] using ih _ _ hrest h1

theorem mem_of_dropWhile_eq (p : Resource → Bool) (l : List Resource) (r : Resource)
    (rest : List Resource) (h : l.dropWhile p = r :: rest) :
    r ∈ l ∧ ∀ x ∈ rest, x ∈ l := by
  have hs : (r :: rest).Sublist l := h ▸ List.dropWhile_sublist p
  exact ⟨hs.subset (List.mem_cons_self r rest),
    fun x hx => hs.subset (List.mem_cons_of_mem r hx)⟩

/-- With a factory that returns no nil, nil is neither idle nor checked out. -/
theorem Model.step_nilfree (env : Env) (s : Model) (held : List Resource) (m : Msg)
    (hm : m.returns held = true)
    (hf : GoodFactory env)
    (h1 : Resource.nil ∉ s.idle) (h2 : Resource.nil ∉ held) :
    Resource.nil ∉ (s.step env m).1.idle ∧
      Resource.nil ∉ checkedOut held m (s.step env m).2 := by
  obtain ⟨hf1, hf2⟩ := hf
  cases m with
  | cls c => simp [Msg.returns] at hm
  | acq a =>
    simp only [Model.step, checkedOut]
    split
    · rename_i r rest hq
      obtain ⟨hr, hrest⟩ := mem_of_dropWhile_eq _ _ _ _ hq
      refine ⟨fun hn => h1 (hrest _ hn), ?_⟩
      simp only [delivered, List.mem_append, List.mem_singleton, not_or]
      exact ⟨h2, fun hn => h1 (hn ▸ hr)⟩
    · split
      · simpa [delivered] using h2
      · split
        · rename_i heq
          rw [heq] at hf1
          simp at hf1
        · rename_i heq
          rw [heq] at hf2
          simp only [delivered, List.mem_append, List.mem_singleton, not_or, List.not_mem_nil,
            not_false_eq_true, true_and]
          exact ⟨h2, fun hn => hf2 hn.symm⟩
  | rel r =>
    simp only [Msg.returns, decide_eq_true_eq] at hm
    have hr : r.r ≠ Resource.nil := fun hn => h2 (hn ▸ hm)
    have he : Resource.nil ∉ held.erase r.r := fun hn => h2 (List.mem_of_mem_erase hn)
    simp only [Model.step, checkedOut]
    split
    · split
      · simp only [delivered, List.mem_append, List.mem_singleton, not_or]
        exact ⟨h1, he, fun hn => hr hn.symm⟩
      · split
        · simp only [delivered, List.append_nil]
          exact ⟨h1, he⟩
        · rename_i heq
          rw [heq] at hf2
          simp only [delivered, List.mem_append, List.mem_singleton, not_or]
          exact ⟨h1, he, fun hn => hf2 hn.symm⟩
    · repeat' split
      all_goals simp only [delivered, List.append_nil, List.mem_append, List.mem_singleton, not_or]
      all_goals first
        | exact ⟨h1, he⟩
        | exact ⟨⟨h1, fun hn => hr hn.symm⟩, he⟩

theorem Model.mux_nilfree (s : Model) (held : List Resource) (trace : List (Env × Msg))
    (hr : s.Returned held trace = true) (hf : ∀ e ∈ trace, GoodFactory e.1)
    (h1 : Resource.nil ∉ s.idle) (h2 : Resource.nil ∉ held) :
    Resource.nil ∉ (s.mux held trace).1.idle ∧ Resource.nil ∉ (s.mux held trace).2.1 := by
  induction trace generalizing s held with
  | nil => exact ⟨h1, h2⟩
  | cons em rest ih =>
    obtain ⟨env, m⟩ := em
    simp only [Model.Returned, Bool.and_eq_true] at hr
    obtain ⟨hm, hrest⟩ := hr
    have hfe : GoodFactory env := hf (env, m) (List.mem_cons_self _ _)
    have hfr : ∀ e ∈ rest, GoodFactory e.1 := fun e he => hf e (List.mem_cons_of_mem _ he)
    obtain ⟨k1, k2⟩ := Model.step_nilfree env s held m hm hfe h1 h2
    cases m with
    | cls c => simp [Msg.returns] at hm
    | acq a => simpa [Model.mux] using ih _ _ hrest hfr k1 k2
    | rel r => simpa [Model.mux] using ih _ _ hrest hfr k1 k2

theorem Model.mux_maxResources (s : Model) (held : List Resource) (trace : List (Env × Msg)) :
    (s.mux held trace).1.maxResources = s.maxResources := by
  induction trace generalizing s held with
  | nil => rfl
  | cons em rest ih =>
    obtain ⟨env, m⟩ := em
    have h2 := Model.step_maxResources env s m
    cases m with
    | cls c => simpa [Model.mux] using h2
    | acq a => simpa [Model.mux, h2] using ih (s.step env (Msg.acq a)).1 (checkedOut held
        (Msg.acq a) (s.step env (Msg.acq a)).2)
    | rel r => simpa [Model.mux, h2] using ih (s.step env (Msg.rel r)).1 (checkedOut held
        (Msg.rel r) (s.step env (Msg.rel r)).2)

theorem Model.mux_idleCapacity (s : Model) (held : List Resource) (trace : List (Env × Msg)) :
    (s.mux held trace).1.idleCapacity = s.idleCapacity := by
  induction trace generalizing s held with
  | nil => rfl
  | cons em rest ih =>
    obtain ⟨env, m⟩ := em
    have h2 := Model.step_idleCapacity env s m
    cases m with
    | cls c => simpa [Model.mux] using h2
    | acq a => simpa [Model.mux, h2] using ih (s.step env (Msg.acq a)).1 (checkedOut held
        (Msg.acq a) (s.step env (Msg.acq a)).2)
    | rel r => simpa [Model.mux, h2] using ih (s.step env (Msg.rel r)).1 (checkedOut held
        (Msg.rel r) (s.step env (Msg.rel r)).2)

/-- An acquire below the bound is served at once, on queues. -/
theorem Model.acq_served (env : Env) (s : Model) (held : List Resource) (a : acquireMessage)
    (hc : s.numResources = (s.idle.length : Int) + (held.length : Int))
    (hn : Resource.nil ∉ s.idle) (hf : GoodFactory env)
    (hb : s.maxResources = -1 ∨ (held.length : Int) < s.maxResources) :
    ∃ r, r ≠ Resource.nil ∧
      ((s.step env (Msg.acq a)).2 = [Effect.sendR a.rch r] ∨
        (s.step env (Msg.acq a)).2 = [Effect.factory, Effect.sendR a.rch r]) ∧
      (s.step env (Msg.acq a)).1.activeWaits = s.activeWaits := by
  have hd := takeWhile_length_add (closedNow env) s.idle
  obtain ⟨hf1, hf2⟩ := hf
  simp only [Model.step]
  split
  · rename_i r rest hq
    obtain ⟨hr, _⟩ := mem_of_dropWhile_eq _ _ _ _ hq
    exact ⟨r, fun h => hn (h ▸ hr), Or.inl rfl, rfl⟩
  · rename_i hq
    rw [hq] at hd
    simp only [List.length_nil] at hd
    split
    · rename_i hpark
      simp only [Bool.and_eq_true, bne_iff_ne, ne_eq, decide_eq_true_eq] at hpark
      omega
    · split
      · rename_i heq
        rw [heq] at hf1
        simp at hf1
      · rename_i r heq
        rw [heq] at hf2
        exact ⟨r, hf2, Or.inr rfl, rfl⟩

/-- The hand-off branch of `muxRel`, on states. -/
theorem muxRel_handoff (env : Env) (st : State) (rel : releaseMessage) (w : acquireMessage)
    (ws : List acquireMessage) (h : st.WF) (hw : st.rp.activeWaits = w :: ws)
    (hc : closedNow env rel.r = false) :
    ∃ st1, step env st (Msg.rel rel) = some (st1, [Effect.sendR w.rch rel.r]) ∧ st1.WF ∧
      st1.rp.activeWaits = ws ∧ st1.rp.idleResources = st.rp.idleResources ∧
      st1.rp.numResources = st.rp.numResources ∧ st1.rp.idleCapacity = st.rp.idleCapacity ∧
      st1.rp.maxResources = st.rp.maxResources := by
  obtain ⟨hI, hA, hR, hC⟩ := h
  obtain ⟨rr, hP, hPW, _⟩ := namedRing_put_spec st.relRing (Resource.rel rel.r) hR
  refine ⟨{ st with rp := { st.rp with activeWaits := ws }, relRing := rr }, ?_,
    ⟨hI, hA, hPW, hC⟩, rfl, rfl, rfl, rfl, rfl⟩
  simp only [step, muxRel, hw, closedNow_not, hc, Bool.not_false, if_true, Option.bind_eq_bind,
    Option.some_bind, hP]

theorem mem_delivered (ch : Nat) (r : Resource) (out : List Effect)
    (h : Effect.sendR ch r ∈ out) : r ∈ delivered out := by
  induction out with
  | nil => simp at h
  | cons e es ih =>
    rcases List.mem_cons.1 h with h1 | h1
    · subst h1; simp [delivered]
    · cases e <;> simp [delivered, ih h1]

/-- A resource that reports closed, and that the factory does not return, is
not sent by any step, on queues. -/
theorem Model.step_not_delivered (env : Env) (s : Model) (m : Msg) (r : Resource)
    (hc : closedNow env r = true) (hf : env.factory.1 ≠ r) :
    r ∉ delivered (s.step env m).2 := by
  cases m with
  | acq a =>
    simp only [Model.step]
    split
    · rename_i x rest hq
      have hx : closedNow env x = false := by
        have := List.head_dropWhile_not (closedNow env) s.idle (by rw [hq]; simp)
        simpa [hq] using this
      simp only [delivered, List.mem_singleton]
      intro h; subst h; rw [hc] at hx; simp at hx
    · split
      · simp [delivered]
      · split
        · simp [delivered]
        · rename_i x heq
          rw [heq] at hf
          simp only [delivered, List.mem_singleton]
          exact fun h => hf h.symm
  | rel x =>
    simp only [Model.step]
    split
    · split
      · rename_i hx
        simp only [delivered, List.mem_singleton]
        intro h; subst h; rw [hc] at hx; simp at hx
      · split
        · simp [delivered]
        · rename_i y heq
          rw [heq] at hf
          simp only [delivered, List.mem_singleton]
          exact fun h => hf h.symm
    · repeat' split
      all_goals simp [delivered]
  | cls c =>
    simp only [Model.step, delivered_append]
    have h1 : ∀ l : List Resource, delivered (l.map Effect.close) = [] := by
      intro l; induction l with
      | nil => rfl
      | cons a l ih => simpa [delivered] using ih
    have h2 : ∀ l : List acquireMessage,
        delivered (l.map (fun aw => Effect.sendE aw.ech "Resource pool closed")) = [] := by
      intro l; induction l with
      | nil => rfl
      | cons a l ih => simpa [delivered] using ih
    simp [h1, h2]

theorem Model.mux_not_delivered (s : Model) (held : List Resource) (trace : List (Env × Msg))
    (r : Resource) (h : ∀ e ∈ trace, closedNow e.1 r = true ∧ e.1.factory.1 ≠ r) :
    r ∉ delivered (s.mux held trace).2.2 := by
  induction trace generalizing s held with
  | nil => simp [Model.mux, delivered]
  | cons em rest ih =>
    obtain ⟨env, m⟩ := em
    obtain ⟨hc, hf⟩ := h (env, m) (List.mem_cons_self _ _)
    have h1 := Model.step_not_delivered env s m r hc hf
    have hr : ∀ e ∈ rest, closedNow e.1 r = true ∧ e.1.factory.1 ≠ r :=
      fun e he => h e (List.mem_cons_of_mem _ he)
    cases m with
    | cls c => simpa [Model.mux] using h1
    | acq a =>
      have h2 := ih (s.step env (Msg.acq a)).1 (checkedOut held (Msg.acq a)
        (s.step env (Msg.acq a)).2) hr
      simp only [Model.mux, delivered_append, List.mem_append, not_or]
      exact ⟨h1, h2⟩
    | rel x =>
      have h2 := ih (s.step env (Msg.rel x)).1 (checkedOut held (Msg.rel x)
        (s.step env (Msg.rel x)).2) hr
      simp only [Model.mux, delivered_append, List.mem_append, not_or]
      exact ⟨h1, h2⟩

/-- The release of a closed closer, on states: the idle ring is untouched and
nothing is sent but what the factory has just returned. -/
theorem muxRel_closed (env : Env) (st : State) (rel : releaseMessage) (h : st.WF)
    (hc : closedNow env rel.r = true) :
    ∃ st1 out, step env st (Msg.rel rel) = some (st1, out) ∧
      st1.rp.idleResources = st.rp.idleResources ∧
      (∀ ch r, Effect.sendR ch r ∈ out → Effect.factory ∈ out ∧ env.factory = (r, none)) := by
  obtain ⟨hI, hA, hR, hC⟩ := h
  obtain ⟨rr, hP, hPW, _⟩ := namedRing_put_spec st.relRing (Resource.rel rel.r) hR
  have hcl : (rel.r.isCloser && env.IsClosed rel.r) = true := hc
  cases hw : st.rp.activeWaits with
  | nil =>
    refine ⟨⟨{ st.rp with numResources := st.rp.numResources - 1 }, st.acqRing, rr, st.clsRing⟩,
      [], ?_, rfl, by simp⟩
    simp only [step, muxRel, hw, ResourcePool.release, hcl, Bool.or_true, if_true,
      Option.bind_eq_bind, Option.some_bind, hP]
  | cons w ws =>
    rcases hfac : env.factory with ⟨r, _ | err⟩
    · refine ⟨{ st with rp := { st.rp with activeWaits := ws }, relRing := rr },
        [Effect.factory, Effect.sendR w.rch r], ?_, rfl, ?_⟩
      · simp only [step, muxRel, hw, closedNow_not, hc, Bool.not_true, Bool.false_eq_true,
          if_false, hfac, Option.bind_eq_bind, Option.some_bind, hP]
      · intro ch x hx
        simp only [List.mem_cons, Effect.sendR.injEq, List.mem_singleton, reduceCtorEq,
          false_or, List.not_mem_nil, or_false] at hx
        simp [hx.2]
    · refine ⟨⟨⟨st.rp.idleResources, st.rp.idleCapacity, st.rp.maxResources,
        st.rp.numResources - 1, ws⟩, st.acqRing, rr, st.clsRing⟩,
        [Effect.factory, Effect.sendE w.ech err], ?_, rfl, ?_⟩
      · simp only [step, muxRel, hw, closedNow_not, hc, Bool.not_true, Bool.false_eq_true,
          if_false, hfac, Option.bind_eq_bind, Option.some_bind, hP]
      · intro ch x hx
        simp at hx

/-- What an acquire sends, on queues: an idle entry that does not report
closed, or what the factory has just returned. -/
theorem Model.acq_sends (env : Env) (s : Model) (a : acquireMessage) (ch : Nat) (r : Resource)
    (h : Effect.sendR ch r ∈ (s.step env (Msg.acq a)).2) :
    ch = a.rch ∧ ((closedNow env r = false ∧ r ∈ s.idle ∧
        Effect.factory ∉ (s.step env (Msg.acq a)).2) ∨
      (Effect.factory ∈ (s.step env (Msg.acq a)).2 ∧ env.factory = (r, none))) := by
  revert h
  simp only [Model.step]
  split
  · rename_i x rest hq
    have hx : closedNow env x = false := by
      have := List.head_dropWhile_not (closedNow env) s.idle (by rw [hq]; simp)
      simpa [hq] using this
    obtain ⟨hm, _⟩ := mem_of_dropWhile_eq _ _ _ _ hq
    intro h
    simp only [List.mem_singleton, Effect.sendR.injEq] at h
    obtain ⟨h1, h2⟩ := h
    subst h1 h2
    exact ⟨rfl, Or.inl ⟨hx, hm, by simp⟩⟩
  · split
    · intro h; simp at h
    · split
      · intro h; simp at h
      · rename_i x heq
        intro h
        simp only [List.mem_cons, reduceCtorEq, Effect.sendR.injEq, List.mem_singleton,
          false_or, List.not_mem_nil, or_false] at h
        obtain ⟨h1, h2⟩ := h
        subst h1 h2
        exact ⟨rfl, Or.inr ⟨by simp, heq⟩⟩

/-- A release with nobody waiting, on queues: one resource fewer is checked
out. -/
theorem Model.step_release_idle (env : Env) (s : Model) (r : releaseMessage)
    (hw : s.activeWaits = []) :
    (s.step env (Msg.rel r)).1.activeWaits = [] ∧
      (s.step env (Msg.rel r)).1.numResources - ((s.step env (Msg.rel r)).1.idle.length : Int) =
        s.numResources - (s.idle.length : Int) - 1 ∧
      (s.step env (Msg.rel r)).1.idle.length ≤ s.idle.length + 1 := by
  simp only [Model.step, hw]
  repeat' split
  all_goals simp only [List.length_append, List.length_singleton, true_and]
  all_goals constructor
  all_goals omega

theorem Model.mux_releases (s : Model) (held : List Resource) (rels : List (Env × Msg))
    (hrel : ∀ e ∈ rels, ∃ r, e.2 = Msg.rel r) (hw : s.activeWaits = []) :
    (s.mux held rels).1.activeWaits = [] ∧
      (s.mux held rels).1.numResources - ((s.mux held rels).1.idle.length : Int) =
        s.numResources - (s.idle.length : Int) - (rels.length : Int) ∧
      (s.mux held rels).1.idle.length ≤ s.idle.length + rels.length := by
  induction rels generalizing s held with
  | nil => simp [Model.mux, hw]
  | cons em rest ih =>
    obtain ⟨env, m⟩ := em
    obtain ⟨r, hr⟩ := hrel (env, m) (List.mem_cons_self _ _)
    simp only at hr
    subst hr
    obtain ⟨k1, k2, k3⟩ := Model.step_release_idle env s r hw
    obtain ⟨j1, j2, j3⟩ := ih (s.step env (Msg.rel r)).1 (checkedOut held (Msg.rel r)
      (s.step env (Msg.rel r)).2) (fun e he => hrel e (List.mem_cons_of_mem _ he)) k1
    simp only [Model.mux, List.length_cons]
    refine ⟨j1, ?_, by omega⟩
    rw [j2, k2]
    push_cast
    ring

/-- An acquire below the bound with a factory that does not fail, on queues:
one send of a resource, one more resource checked out, and an idle entry
fewer if there was one. -/
theorem Model.step_acquire_served (env : Env) (s : Model) (a : acquireMessage)
    (hw : s.activeWaits = []) (hf : env.factory.2 = none)
    (hb : s.maxResources = -1 ∨ s.numResources - (s.idle.length : Int) < s.maxResources) :
    (s.step env (Msg.acq a)).1.activeWaits = [] ∧
      (s.step env (Msg.acq a)).1.numResources - ((s.step env (Msg.acq a)).1.idle.length : Int) =
        s.numResources - (s.idle.length : Int) + 1 ∧
      (s.step env (Msg.acq a)).1.idle.length ≤ s.idle.length - 1 ∧
      ∃ r, responses (s.step env (Msg.acq a)).2 = [Effect.sendR a.rch r] ∧
        delivered (s.step env (Msg.acq a)).2 = [r] := by
  have hd := takeWhile_length_add (closedNow env) s.idle
  simp only [Model.step]
  split
  · rename_i r rest hq
    rw [hq] at hd
    simp only [List.length_cons] at hd
    push_cast at hd
    refine ⟨hw, by simp only; omega, by simp only; omega, r, by simp [responses], by simp [delivered]⟩
  · rename_i hq
    rw [hq] at hd
    simp only [List.length_nil] at hd
    split
    · rename_i hpark
      simp only [Bool.and_eq_true, bne_iff_ne, ne_eq, decide_eq_true_eq] at hpark
      omega
    · split
      · rename_i heq
        rw [heq] at hf
        simp at hf
      · rename_i r heq
        refine ⟨hw, by simp only [List.length_nil]; push_cast; omega, by simp, r,
          by simp [responses], by simp [delivered]⟩

theorem Model.mux_acquires_served (s : Model) (held : List Resource)
    (reqs : List (Env × acquireMessage)) (hw : s.activeWaits = [])
    (hf : ∀ q ∈ reqs, q.1.factory.2 = none)
    (hb : s.maxResources = -1 ∨
      s.numResources - (s.idle.length : Int) + (reqs.length : Int) ≤ s.maxResources) :
    (s.mux held (reqs.map acqOf)).1.activeWaits = [] ∧
      (s.mux held (reqs.map acqOf)).1.numResources -
          ((s.mux held (reqs.map acqOf)).1.idle.length : Int) =
        s.numResources - (s.idle.length : Int) + (reqs.length : Int) ∧
      (s.mux held (reqs.map acqOf)).1.idle.length ≤ s.idle.length - reqs.length ∧
      ∃ rs, rs.length = reqs.length ∧
        responses (s.mux held (reqs.map acqOf)).2.2 =
          List.zipWith (fun q r => Effect.sendR q.2.rch r) reqs rs ∧
        delivered (s.mux held (reqs.map acqOf)).2.2 = rs := by
  induction reqs generalizing s held with
  | nil => exact ⟨hw, by simp [Model.mux], by simp [Model.mux], [], rfl, by simp [Model.mux, responses],
      by simp [Model.mux, delivered]⟩
  | cons q rest ih =>
    obtain ⟨env, a⟩ := q
    have hfe : env.factory.2 = none := hf (env, a) (List.mem_cons_self _ _)
    simp only [List.length_cons] at hb
    push_cast at hb
    obtain ⟨k1, k2, k3, r, k4, k5⟩ := Model.step_acquire_served env s a hw hfe
      (by rcases hb with hb | hb
          · exact Or.inl hb
          · right
            have : (0 : Int) ≤ (rest.length : Int) := by positivity
            omega)
    have hmx := Model.step_maxResources env s (Msg.acq a)
    obtain ⟨j1, j2, j3, rs, j4, j5, j6⟩ := ih (s.step env (Msg.acq a)).1
      (checkedOut held (Msg.acq a) (s.step env (Msg.acq a)).2) k1
      (fun x hx => hf x (List.mem_cons_of_mem _ hx))
      (by rw [hmx, k2]
          rcases hb with hb | hb
          · exact Or.inl hb
          · right; omega)
    simp only [List.map_cons, acqOf, Model.mux, List.length_cons]
    refine ⟨j1, ?_, by omega, r :: rs, by simp [j4], ?_, ?_⟩
    · rw [j2, k2]; push_cast; ring
    · simp only [responses, List.filter_append, List.zipWith_cons_cons] at k4 j5 ⊢
      rw [k4, j5]
      rfl
    · rw [delivered_append, k5, j6]
      rfl

theorem three_phase_count (n i1 i2 i3 : Nat) (x1 x2 x3 : Int) (a2 : x1 - (i1 : Int) = (n : Int))
    (a3 : i1 ≤ 0 - n) (b2 : x2 - (i2 : Int) = x1 - (i1 : Int) - (n : Int)) (b3 : i2 ≤ i1 + n)
    (c2 : x3 - (i3 : Int) = x2 - (i2 : Int) + (n : Int)) (c3 : i3 ≤ i2 - n) :
    x3 = (n : Int) := by
  omega

/-- The statement of `mux_model` with the results named. -/
theorem mux_model_eq (st : State) (held : List Resource) (trace : List (Env × Msg))
    (h : st.WF) :
    ∃ st1 held1 log1, mux st held trace = some (st1, held1, log1) ∧ st1.WF ∧
      st.model.mux held trace = (st1.model, held1, log1) := by
  obtain ⟨st1, hS, hW, hM⟩ := mux_model st held trace h
  exact ⟨st1, _, _, hS, hW, by rw [hM]⟩

/-- The branch of `muxRel` taken when nobody waits: `release`, then the put of
the message on the release free list. -/
theorem muxRel_idle (env : Env) (st : State) (rel : releaseMessage) (h : st.WF)
    (hw : st.rp.activeWaits = []) :
    ∃ rr, st.relRing.put (Resource.rel rel.r) = some rr ∧ rr.toring.WF ∧
      ∀ rp1 out, st.rp.release env rel.r = some (rp1, out) →
        step env st (Msg.rel rel) = some (⟨rp1, st.acqRing, rr, st.clsRing⟩, out) := by
  obtain ⟨_, _, hR, _⟩ := h
  obtain ⟨rr, hP, hPW, _⟩ := namedRing_put_spec st.relRing (Resource.rel rel.r) hR
  refine ⟨rr, hP, hPW, fun rp1 out hrel => ?_⟩
  simp only [step, muxRel, hw, hrel, Option.bind_eq_bind, Option.some_bind, hP]

/-- An acquire on an empty idle ring, on states: the loop of `acquire` is not
entered. -/
theorem acquireLoop_empty (env : Env) (fuel : Nat) (rp : ResourcePool)
    (hE : rp.idleResources.Empty = true) :
    acquireLoop env (fuel + 1) rp = some (rp, none) := by
  simp [acquireLoop, hE]

theorem takeWhile_dropWhile_skip (p : Resource → Bool) (skipped rest : List Resource)
    (r : Resource) (hs : ∀ x ∈ skipped, p x = true) (hr : p r = false) :
    (skipped ++ r :: rest).takeWhile p = skipped ∧
      (skipped ++ r :: rest).dropWhile p = r :: rest := by
  induction skipped with
  | nil => simp [List.takeWhile_cons, List.dropWhile_cons, hr]
  | cons y ys ih =>
    have hy : p y = true := hs y (List.mem_cons_self _ _)
    obtain ⟨h1, h2⟩ := ih (fun x hx => hs x (List.mem_cons_of_mem _ hx))
    simp [List.takeWhile_cons, List.dropWhile_cons, hy, h1, h2]

theorem takeWhile_dropWhile_all (p : Resource → Bool) (q : List Resource)
    (hs : ∀ x ∈ q, p x = true) : q.takeWhile p = q ∧ q.dropWhile p = [] := by
  induction q with
  | nil => simp
  | cons y ys ih =>
    have hy : p y = true := hs y (List.mem_cons_self _ _)
    obtain ⟨h1, h2⟩ := ih (fun x hx => hs x (List.mem_cons_of_mem _ hx))
    simp [List.takeWhile_cons, List.dropWhile_cons, hy, h1, h2]

/-- The statement of `step_model` with the results named. -/
theorem step_model_eq (env : Env) (st : State) (m : Msg) (s1 : Model) (out : List Effect)
    (h : st.WF) (hm : st.model.step env m = (s1, out)) :
    ∃ st1, step env st m = some (st1, out) ∧ st1.WF ∧ st1.model = s1 := by
  obtain ⟨st1, hS, hW, hM⟩ := step_model env st m h
  rw [hm] at hS hM
  exact ⟨st1, hS, hW, hM⟩

/-- An acquire that finds a usable idle entry after closed ones, on queues. -/
theorem Model.acq_scan_hit (env : Env) (s : Model) (a : acquireMessage)
    (skipped rest : List Resource) (r : Resource) (hq : s.idle = skipped ++ r :: rest)
    (hs : ∀ x ∈ skipped, closedNow env x = true) (hr : closedNow env r = false) :
    s.step env (Msg.acq a) =
      ({ s with idle := rest, numResources := s.numResources - (skipped.length : Int),
                acqFree := s.acqFree ++ [Resource.acq a] }, [Effect.sendR a.rch r]) := by
  obtain ⟨h1, h2⟩ := takeWhile_dropWhile_skip (closedNow env) skipped rest r hs hr
  simp only [Model.step, hq, h1, h2]

/-- An acquire that finds no usable idle entry and is parked, on queues. -/
theorem Model.acq_scan_park (env : Env) (s : Model) (a : acquireMessage)
    (hs : ∀ x ∈ s.idle, closedNow env x = true)
    (hp : s.maxResources ≠ -1 ∧ s.maxResources ≤ s.numResources - (s.idle.length : Int)) :
    s.step env (Msg.acq a) =
      ({ s with idle := [], numResources := s.numResources - (s.idle.length : Int),
                activeWaits := s.activeWaits ++ [a],
                acqFree := s.acqFree ++ [Resource.acq a] }, []) := by
  obtain ⟨h1, h2⟩ := takeWhile_dropWhile_all (closedNow env) s.idle hs
  have hc : (s.maxResources != -1 &&
      decide (s.numResources - (s.idle.length : Int) ≥ s.maxResources)) = true := by
    simp [hp.1, hp.2]
  simp only [Model.step, h1, h2, hc, if_true]

/-- An acquire that finds no usable idle entry and is not parked, on queues:
the factory decides. -/
theorem Model.acq_scan_make (env : Env) (s : Model) (a : acquireMessage)
    (hs : ∀ x ∈ s.idle, closedNow env x = true)
    (hp : ¬ (s.maxResources ≠ -1 ∧ s.maxResources ≤ s.numResources - (s.idle.length : Int))) :
    (∀ r err, env.factory = (r, some err) →
      s.step env (Msg.acq a) =
        ({ s with idle := [], numResources := s.numResources - (s.idle.length : Int),
                  acqFree := s.acqFree ++ [Resource.acq a] },
          [Effect.factory, Effect.sendE a.ech err])) ∧
    (∀ r, env.factory = (r, none) →
      s.step env (Msg.acq a) =
        ({ s with idle := [], numResources := s.numResources - (s.idle.length : Int) + 1,
                  acqFree := s.acqFree ++ [Resource.acq a] },
          [Effect.factory, Effect.sendR a.rch r])) := by
  obtain ⟨h1, h2⟩ := takeWhile_dropWhile_all (closedNow env) s.idle hs
  have hc : (s.maxResources != -1 &&
      decide (s.numResources - (s.idle.length : Int) ≥ s.maxResources)) = false := by
    simp only [not_and, ne_eq, not_le] at hp
    by_cases h : s.maxResources = -1
    · simp [h]
    · have := hp h
      have h3 : ¬ s.maxResources ≤ s.numResources - (s.idle.length : Int) := by omega
      simp [h3]
  constructor
  · intro r err hf
    simp only [Model.step, h1, h2, hc, Bool.false_eq_true, if_false, hf]
  · intro r hf
    simp only [Model.step, h1, h2, hc, Bool.false_eq_true, if_false, hf]

/-- Waiters only with an empty idle queue: kept by every message, on queues. -/
theorem Model.step_waits_idle (env : Env) (s : Model) (m : Msg)
    (h : s.activeWaits ≠ [] → s.idle = []) :
    (s.step env m).1.activeWaits ≠ [] → (s.step env m).1.idle = [] := by
  cases m with
  | acq a =>
    simp only [Model.step]
    split
    · rename_i r rest hq
      intro hw
      have hi := h hw
      rw [hi] at hq
      simp at hq
    · repeat' split
      all_goals intro _
      all_goals rfl
  | rel x =>
    simp only [Model.step]
    split
    · rename_i w rest hw
      have hi : s.idle = [] := h (by rw [hw]; simp)
      repeat' split
      all_goals intro _
      all_goals exact hi
    · rename_i hw
      repeat' split
      all_goals intro hne
      all_goals exact absurd hw hne
  | cls c =>
    intro _
    rfl

theorem Model.mux_waits_idle (s : Model) (held : List Resource) (trace : List (Env × Msg))
    (h : s.activeWaits ≠ [] → s.idle = []) :
    (s.mux held trace).1.activeWaits ≠ [] → (s.mux held trace).1.idle = [] := by
  induction trace generalizing s held with
  | nil => exact h
  | cons em rest ih =>
    obtain ⟨env, m⟩ := em
    have h1 := Model.step_waits_idle env s m h
    cases m with
    | cls c => simpa [Model.mux] using h1
    | acq a => simpa [Model.mux] using ih _ _ h1
    | rel x => simpa [Model.mux] using ih _ _ h1

theorem Replaced_model (st : State) (trace : List (Env × Msg)) (h : st.WF) :
    Replaced st trace = st.model.Replaced trace := by
  induction trace generalizing st with
  | nil => simp [Replaced, Model.Replaced]
  | cons em rest ih =>
    obtain ⟨env, m⟩ := em
    obtain ⟨st1, hS, hW, hM⟩ := step_model env st m h
    have hw : st.model.activeWaits = st.rp.activeWaits := rfl
    simp only [Replaced, Model.Replaced, hS, ih st1 hW, hM, hw]

/-- With a bound that is not negative, the count stays within the bound and
equals it while somebody waits, as long as no replacement fails with two or
more requests parked: kept by every message, on queues. -/
theorem Model.step_saturated (env : Env) (s : Model) (m : Msg) (hmx : 0 ≤ s.maxResources)
    (hok : m.failsReplacement env s.activeWaits = false)
    (hi : s.activeWaits ≠ [] → s.idle = [])
    (hle : s.numResources ≤ s.maxResources)
    (heq : s.activeWaits ≠ [] → s.numResources = s.maxResources) :
    (s.step env m).1.activeWaits ≠ [] → (s.step env m).1.numResources = s.maxResources := by
  have hd := takeWhile_length_add (closedNow env) s.idle
  have hk : (0 : Int) ≤ ((s.idle.takeWhile (closedNow env)).length : Int) := by positivity
  cases m with
  | acq a =>
    simp only [Model.step]
    split
    · rename_i r rest hq
      intro hw
      have := hi hw
      rw [this] at hq
      simp at hq
    · rename_i hq
      split
      · rename_i hpark
        simp only [Bool.and_eq_true, bne_iff_ne, ne_eq, decide_eq_true_eq] at hpark
        intro _
        simp only
        omega
      · rename_i hpark
        simp only [Bool.and_eq_true, bne_iff_ne, ne_eq, decide_eq_true_eq, not_and, not_le]
          at hpark
        have hlt := hpark (by omega)
        have hnw : s.activeWaits = [] := by
          by_contra hne
          have h1 := hi hne
          have h2 := heq hne
          rw [h1] at hlt
          simp at hlt
          omega
        split
        all_goals intro hw
        all_goals exact absurd hnw hw
  | rel x =>
    simp only [Model.step]
    split
    · rename_i w rest hw
      have hne : s.activeWaits ≠ [] := by rw [hw]; simp
      have hnum := heq hne
      split
      · intro _; exact hnum
      · rename_i hc
        split
        · rename_i r err hf
          have hcl : closedNow env x.r = true := by simpa using hc
          simp only [Msg.failsReplacement, hw, List.length_cons, hf, Option.isSome_some,
            Bool.and_true, hcl, decide_eq_false_iff_not, not_le] at hok
          have hrest : rest = [] := List.length_eq_zero.1 (by omega)
          intro hne
          exact absurd hrest hne
        · intro _; exact hnum
    · rename_i hw
      repeat' split
      all_goals intro hne
      all_goals exact absurd hw hne
  | cls c =>
    intro hne
    exact heq hne

theorem Model.mux_saturated (s : Model) (held : List Resource) (trace : List (Env × Msg))
    (hmx : 0 ≤ s.maxResources) (hok : s.Replaced trace = true)
    (hi : s.activeWaits ≠ [] → s.idle = [])
    (hle : s.numResources ≤ s.maxResources)
    (heq : s.activeWaits ≠ [] → s.numResources = s.maxResources) :
    (s.mux held trace).1.activeWaits ≠ [] →
      (s.mux held trace).1.numResources = s.maxResources := by
  induction trace generalizing s held with
  | nil => exact heq
  | cons em rest ih =>
    obtain ⟨env, m⟩ := em
    simp only [Model.Replaced, Bool.and_eq_true, Bool.not_eq_true'] at hok
    obtain ⟨hok1, hok2⟩ := hok
    have h1 := Model.step_waits_idle env s m hi
    have h2 := Model.step_num_le env s m hmx hle
    have h3 := Model.step_saturated env s m hmx hok1 hi hle heq
    have h4 := Model.step_maxResources env s m
    cases m with
    | cls c => simpa [Model.mux] using h3
    | acq a =>
      have := ih (s.step env (Msg.acq a)).1 (checkedOut held (Msg.acq a)
        (s.step env (Msg.acq a)).2) (by rw [h4]; exact hmx) hok2 h1 (by rw [h4]; exact h2)
        (by rw [h4]; exact h3)
      rw [h4] at this
      simpa [Model.mux] using this
    | rel x =>
      have := ih (s.step env (Msg.rel x)).1 (checkedOut held (Msg.rel x)
        (s.step env (Msg.rel x)).2) (by rw [h4]; exact hmx) hok2 h1 (by rw [h4]; exact h2)
        (by rw [h4]; exact h3)
      rw [h4] at this
      simpa [Model.mux] using this

/-- Every handled acquire message ends up on the acquire free list, parked or
not. -/
theorem muxAcq_recycles (env : Env) (st : State) (acq : acquireMessage) (h : st.WF) :
    ∃ st1 out, step env st (Msg.acq acq) = some (st1, out) ∧
      st1.acqRing.toring.toList = st.acqRing.toring.toList ++ [Resource.acq acq] := by
  obtain ⟨st1, hS, _, hM⟩ := step_model env st (Msg.acq acq) h
  refine ⟨st1, _, hS, ?_⟩
  have h1 : st1.acqRing.toring.toList = st1.model.acqFree := rfl
  rw [h1, hM]
  simp only [Model.step]
  repeat' split
  all_goals rfl

/-- A close message leaves `numResources` as it was, whatever the idle queue
holds. -/
theorem muxCls_numResources (env : Env) (st : State) (cm : closeMessage) (h : st.WF) :
    ∃ st1 out, step env st (Msg.cls cm) = some (st1, out) ∧
      st1.rp.numResources = st.rp.numResources := by
  obtain ⟨st1, hS, _, hM⟩ := step_model env st (Msg.cls cm) h
  exact ⟨st1, _, hS, congrArg Model.numResources hM⟩

/-- The step the condition `Replaced` rules out, on states: a release of a
closed closer with two or more requests parked and a failing factory leaves a
request parked and lowers `numResources` by one, so a count that equalled
`maxResources` no longer does. -/
theorem muxRel_strands (env : Env) (st : State) (rel : releaseMessage)
    (w w2 : acquireMessage) (ws : List acquireMessage) (r : Resource) (err : String)
    (h : st.WF) (hw : st.rp.activeWaits = w :: w2 :: ws) (hc : closedNow env rel.r = true)
    (hf : env.factory = (r, some err)) :
    (Msg.rel rel).failsReplacement env st.rp.activeWaits = true ∧
      ∃ st1 out, step env st (Msg.rel rel) = some (st1, out) ∧
        st1.rp.activeWaits = w2 :: ws ∧ st1.rp.numResources = st.rp.numResources - 1 ∧
        st1.rp.maxResources = st.rp.maxResources := by
  obtain ⟨rr, hP, _, _⟩ := namedRing_put_spec st.relRing (Resource.rel rel.r) h.2.2.1
  constructor
  · simp [Msg.failsReplacement, hw, hc, hf]
  · refine ⟨⟨⟨st.rp.idleResources, st.rp.idleCapacity, st.rp.maxResources,
      st.rp.numResources - 1, w2 :: ws⟩, st.acqRing, rr, st.clsRing⟩,
      [Effect.factory, Effect.sendE w.ech err], ?_, rfl, rfl, rfl⟩
    simp only [step, muxRel, hw, closedNow_not, hc, Bool.not_true, Bool.false_eq_true,
      if_false, hf, Option.bind_eq_bind, Option.some_bind, hP]

/-- A close message sends no resource, on queues. -/
theorem Model.cls_delivered (env : Env) (s : Model) (c : closeMessage) :
    delivered (s.step env (Msg.cls c)).2 = [] := by
  have h1 : ∀ l : List Resource, delivered (l.map Effect.close) = [] := by
    intro l; induction l with
    | nil => rfl
    | cons a l ih => simpa [delivered] using ih
  have h2 : ∀ l : List acquireMessage,
      delivered (l.map (fun aw => Effect.sendE aw.ech "Resource pool closed")) = [] := by
    intro l; induction l with
    | nil => rfl
    | cons a l ih => simpa [delivered] using ih
  simp [Model.step, delivered_append, h1, h2]

/-- A resource that reports closed is sent by a step only as what the factory
has returned in that step, on queues. -/
theorem Model.step_delivered_closed (env : Env) (s : Model) (m : Msg) (r : Resource)
    (hc : closedNow env r = true) (hr : r ∈ delivered (s.step env m).2) :
    Effect.factory ∈ (s.step env m).2 ∧ env.factory = (r, none) := by
  by_cases hf : env.factory.1 = r
  · revert hr
    cases m with
    | acq a =>
      simp only [Model.step]
      split
      · rename_i x rest hq
        have hx : closedNow env x = false := by
          have := List.head_dropWhile_not (closedNow env) s.idle (by rw [hq]; simp)
          simpa [hq] using this
        simp only [delivered, List.mem_singleton]
        intro h; subst h; rw [hc] at hx; simp at hx
      · split
        · simp [delivered]
        · split
          · simp [delivered]
          · rename_i x heq
            rw [heq] at hf
            simp only at hf
            subst hf
            intro _
            exact ⟨by simp, heq⟩
    | rel x =>
      simp only [Model.step]
      split
      · split
        · rename_i hx
          simp only [delivered, List.mem_singleton]
          intro h; subst h; rw [hc] at hx; simp at hx
        · split
          · simp [delivered]
          · rename_i y heq
            rw [heq] at hf
            simp only at hf
            subst hf
            intro _
            exact ⟨by simp, heq⟩
      · repeat' split
        all_goals simp [delivered]
    | cls c =>
      rw [Model.cls_delivered]
      intro h
      simp at h
  · exact absurd hr (Model.step_not_delivered env s m r hc hf)

/-- Along a trace during which `r` reports closed, `mux` sends `r` only if some
step called the factory and got `r` from it. -/
theorem mux_closed_sends (st : State) (held : List Resource) (trace : List (Env × Msg))
    (r : Resource) (h : st.WF) (hc : ∀ e ∈ trace, closedNow e.1 r = true) :
    ∃ st1 held1 log, mux st held trace = some (st1, held1, log) ∧
      (r ∈ delivered log → factoryMade r st trace = true) := by
  induction trace generalizing st held with
  | nil => exact ⟨st, held, [], rfl, fun hr => by simp [delivered] at hr⟩
  | cons em rest ih =>
    obtain ⟨env, m⟩ := em
    have hce : closedNow env r = true := hc (env, m) (List.mem_cons_self _ _)
    obtain ⟨st1, hS, hW, _⟩ := step_model env st m h
    have hstep := Model.step_delivered_closed env st.model m r hce
    have hmade : r ∈ delivered (st.model.step env m).2 →
        (decide (Effect.factory ∈ (st.model.step env m).2) &&
          decide (env.factory = (r, none))) = true := by
      intro hr
      obtain ⟨h1, h2⟩ := hstep hr
      simp [h1, h2]
    cases m with
    | cls c =>
      refine ⟨st1, checkedOut held (Msg.cls c) (st.model.step env (Msg.cls c)).2,
        (st.model.step env (Msg.cls c)).2, by simp only [mux, hS], fun hr => ?_⟩
      simp only [factoryMade, hS, hmade hr, Bool.true_or]
    | acq a =>
      obtain ⟨st2, held2, log2, hS2, hL2⟩ := ih st1 (checkedOut held (Msg.acq a)
        (st.model.step env (Msg.acq a)).2) hW (fun e he => hc e (List.mem_cons_of_mem _ he))
      refine ⟨st2, held2, (st.model.step env (Msg.acq a)).2 ++ log2,
        by simp only [mux, hS, hS2], fun hr => ?_⟩
      rw [delivered_append, List.mem_append] at hr
      simp only [factoryMade, hS, Bool.or_eq_true]
      rcases hr with hr | hr
      · exact Or.inl (hmade hr)
      · exact Or.inr (hL2 hr)
    | rel x =>
      obtain ⟨st2, held2, log2, hS2, hL2⟩ := ih st1 (checkedOut held (Msg.rel x)
        (st.model.step env (Msg.rel x)).2) hW (fun e he => hc e (List.mem_cons_of_mem _ he))
      refine ⟨st2, held2, (st.model.step env (Msg.rel x)).2 ++ log2,
        by simp only [mux, hS, hS2], fun hr => ?_⟩
      rw [delivered_append, List.mem_append] at hr
      simp only [factoryMade, hS, Bool.or_eq_true]
      rcases hr with hr | hr
      · exact Or.inl (hmade hr)
      · exact Or.inr (hL2 hr)

/-- The condition `Replaced` is forced, on queues: if after every prefix of a
trace of acquires and releases a non-empty `activeWaits` comes with
`numResources = maxResources`, then no replacement has failed while two or more
requests were parked. -/
theorem Model.saturated_Replaced (s : Model) (held : List Resource)
    (trace : List (Env × Msg)) (hcls : ∀ e ∈ trace, ∀ c, e.2 ≠ Msg.cls c)
    (hinv : ∀ n, (s.mux held (trace.take n)).1.activeWaits ≠ [] →
      (s.mux held (trace.take n)).1.numResources = s.maxResources) :
    s.Replaced trace = true := by
  induction trace generalizing s held with
  | nil => rfl
  | cons em rest ih =>
    obtain ⟨env, m⟩ := em
    have h0 := hinv 0
    have h1 := hinv 1
    simp only [List.take_zero, Model.mux] at h0
    simp only [Model.Replaced, Bool.and_eq_true, Bool.not_eq_true']
    cases m with
    | cls c => exact absurd rfl (hcls (env, Msg.cls c) (List.mem_cons_self _ _) c)
    | acq a =>
      refine ⟨rfl, ih _ (checkedOut held (Msg.acq a) (s.step env (Msg.acq a)).2)
        (fun e he => hcls e (List.mem_cons_of_mem _ he)) (fun n => ?_)⟩
      have h2 := hinv (n + 1)
      simp only [List.take_succ_cons, Model.mux] at h2
      rw [Model.step_maxResources]
      exact h2
    | rel x =>
      refine ⟨?_, ih _ (checkedOut held (Msg.rel x) (s.step env (Msg.rel x)).2)
        (fun e he => hcls e (List.mem_cons_of_mem _ he)) (fun n => ?_)⟩
      · cases hfail : (Msg.rel x).failsReplacement env s.activeWaits with
        | false => rfl
        | true =>
          exfalso
          simp only [Msg.failsReplacement, Bool.and_eq_true, decide_eq_true_eq] at hfail
          obtain ⟨⟨hlen, hc⟩, hfac⟩ := hfail
          rcases hfe : env.factory with ⟨r, _ | err⟩
          · rw [hfe] at hfac
            simp at hfac
          · rcases hw : s.activeWaits with _ | ⟨w, _ | ⟨w2, ws⟩⟩
            · rw [hw] at hlen
              simp at hlen
            · rw [hw] at hlen
              simp at hlen
            · simp only [List.take_succ_cons, List.take_zero, Model.mux, Model.step, hw, hc,
                Bool.not_true, Bool.false_eq_true, if_false, hfe] at h1
              rw [hw] at h0
              have e0 := h0 (by simp)
              have e1 := h1 (by simp)
              omega
      · have h2 := hinv (n + 1)
        simp only [List.take_succ_cons, Model.mux] at h2
        rw [Model.step_maxResources]
        exact h2

/-- The condition `Replaced` is forced: from a well-formed state, if `mux`
leaves, after every prefix of a trace of acquires and releases, a state in which
a non-empty `activeWaits` comes with `numResources = maxResources`, then no
replacement has failed while two or more requests were parked. -/
theorem Replaced_of_saturated (st : State) (trace : List (Env × Msg)) (h : st.WF)
    (hcls : ∀ e ∈ trace, ∀ c, e.2 ≠ Msg.cls c)
    (hinv : ∀ n st1 held log, mux st [] (trace.take n) = some (st1, held, log) →
      st1.rp.activeWaits ≠ [] → st1.rp.numResources = st.rp.maxResources) :
    Replaced st trace = true := by
  rw [Replaced_model st trace h]
  refine Model.saturated_Replaced st.model [] trace hcls (fun n => ?_)
  obtain ⟨st1, held1, log1, hS, _, hM⟩ := mux_model_eq st [] (trace.take n) h
  rw [hM]
  exact hinv n st1 held1 log1 hS

/-! ## The claims -/

/-- C1: from a new pool, along any trace of acquires and releases in which
every release returns a checked-out resource and the factory neither fails nor
returns nil, `mux` handles every message, and an acquire handled while fewer
than `maxResources` resources are checked out (or with `maxResources = -1`) is
answered in that very step by one send of a non-nil resource on its response
channel: no error is sent and the request is not appended to `activeWaits`. -/
theorem C1_acquire_below_bound_served (ic mx : Int) (st : State) (trace : List (Env × Msg))
    (env : Env) (acq : acquireMessage) (hnew : st.isNew ic mx)
    (hret : Returned st [] trace = true) (hfac : ∀ e ∈ trace, GoodFactory e.1)
    (henv : GoodFactory env) :
    ∃ st1 held log, mux st [] trace = some (st1, held, log) ∧
      ((mx = -1 ∨ (held.length : Int) < mx) →
        ∃ st2 r, r ≠ Resource.nil ∧
          (step env st1 (Msg.acq acq) = some (st2, [Effect.sendR acq.rch r]) ∨
            step env st1 (Msg.acq acq) =
              some (st2, [Effect.factory, Effect.sendR acq.rch r])) ∧
          st2.rp.activeWaits = st1.rp.activeWaits) := by
  obtain ⟨hi, hic, hmx, hnum, hw⟩ := State.isNew_model st ic mx hnew
  obtain ⟨st1, hS, hW, hM⟩ := mux_model st [] trace hnew.2
  have hR := (Returned_model st [] trace hnew.2) ▸ hret
  have hC := Model.mux_conserved st.model [] trace hR (by simp [hi, hnum])
  have hN := Model.mux_nilfree st.model [] trace hR hfac (by simp [hi]) (by simp)
  have hX := Model.mux_maxResources st.model [] trace
  rw [← hM] at hC hN hX
  refine ⟨st1, _, _, hS, fun hb => ?_⟩
  obtain ⟨st2, hS2, _, hM2⟩ := step_model env st1 (Msg.acq acq) hW
  obtain ⟨r, hr, hout, hwaits⟩ := Model.acq_served env st1.model _ acq hC hN.1 henv
    (by rw [hX, hmx]; exact hb)
  refine ⟨st2, r, hr, ?_, ?_⟩
  · rcases hout with h | h
    · left; rw [hS2, h]
    · right; rw [hS2, h]
  · have : st2.model.activeWaits = st1.model.activeWaits := by rw [hM2, hwaits]
    exact this

theorem C1_acquire_below_bound_served_witness :
    (State.fresh 2 1).isNew 2 1 ∧ Returned (State.fresh 2 1) [] sampleTrace = true ∧
      (∀ e ∈ sampleTrace, GoodFactory e.1) ∧ GoodFactory (Env.making (Resource.plain 9)) ∧
      ∃ st1 held log, mux (State.fresh 2 1) [] sampleTrace = some (st1, held, log) ∧
        (((1 : Int) = -1 ∨ (held.length : Int) < 1) →
          ∃ st2 r, r ≠ Resource.nil ∧
            (step (Env.making (Resource.plain 9)) st1 (Msg.acq ⟨2, 3⟩) =
                some (st2, [Effect.sendR 2 r]) ∨
              step (Env.making (Resource.plain 9)) st1 (Msg.acq ⟨2, 3⟩) =
                some (st2, [Effect.factory, Effect.sendR 2 r])) ∧
            st2.rp.activeWaits = st1.rp.activeWaits) :=
  ⟨State.fresh_isNew 2 1, by decide, by decide, by decide,
    C1_acquire_below_bound_served 2 1 (State.fresh 2 1) sampleTrace
      (Env.making (Resource.plain 9)) ⟨2, 3⟩ (State.fresh_isNew 2 1) (by decide) (by decide)
      (by decide)⟩

/-- C2: for a pool created with a bound `maxResources ≥ 0`, `mux` handles every
trace of acquire, release and close messages (whatever the factory answers and
whatever is released), and `NumResources()` is at most `maxResources`
afterwards; the trace being arbitrary, this holds after every step. -/
theorem C2_numResources_le_maxResources (ic mx : Int) (st : State)
    (trace : List (Env × Msg)) (hmx : 0 ≤ mx) (hnew : st.isNew ic mx) :
    ∃ st1 held log, mux st [] trace = some (st1, held, log) ∧ st1.rp.NumResources ≤ mx := by
  obtain ⟨_, _, hmx1, hnum, _⟩ := State.isNew_model st ic mx hnew
  obtain ⟨st1, hS, _, hM⟩ := mux_model st [] trace hnew.2
  have h := Model.mux_num_le st.model [] trace (by rw [hmx1]; exact hmx) (by rw [hmx1, hnum]; exact hmx)
  rw [← hM, hmx1] at h
  exact ⟨st1, _, _, hS, h⟩

theorem C2_numResources_le_maxResources_witness :
    (0 : Int) ≤ 1 ∧ (State.fresh 2 1).isNew 2 1 ∧
      ∃ st1 held log, mux (State.fresh 2 1) [] mixedTrace = some (st1, held, log) ∧
        st1.rp.NumResources ≤ 1 :=
  ⟨by decide, State.fresh_isNew 2 1,
    C2_numResources_le_maxResources 2 1 (State.fresh 2 1) mixedTrace (by decide)
      (State.fresh_isNew 2 1)⟩

/-- C3: from a new pool, along any trace of acquires and releases in which
every release returns a resource that was handed out and not yet released,
`mux` handles every message and afterwards `numResources` is the size of the
idle queue plus the number of resources handed out and not yet released; so
`numResources` is not negative. The trace being arbitrary, this holds after
every step. -/
theorem C3_resource_conservation (ic mx : Int) (st : State) (trace : List (Env × Msg))
    (hnew : st.isNew ic mx) (hret : Returned st [] trace = true) :
    ∃ st1 held log, mux st [] trace = some (st1, held, log) ∧
      st1.rp.numResources = st1.rp.idleResources.Size + (held.length : Int) ∧
      st1.rp.idleResources.Size = (st1.rp.idleResources.toList.length : Int) ∧
      0 ≤ st1.rp.numResources := by
  obtain ⟨hi, _, _, hnum, _⟩ := State.isNew_model st ic mx hnew
  obtain ⟨st1, hS, hW, hM⟩ := mux_model st [] trace hnew.2
  have hR := (Returned_model st [] trace hnew.2) ▸ hret
  have hC := Model.mux_conserved st.model [] trace hR (by simp [hi, hnum])
  rw [← hM] at hC
  have hsz := ring_Size_eq _ hW.1
  have hC1 : st1.rp.numResources = (st1.rp.idleResources.toList.length : Int) +
      (((st.model.mux [] trace).2.1).length : Int) := hC
  refine ⟨st1, _, _, hS, ?_, hsz, ?_⟩
  · rw [hsz]; exact hC1
  · rw [hC1]; positivity

theorem C3_resource_conservation_witness :
    (State.fresh 2 1).isNew 2 1 ∧ Returned (State.fresh 2 1) [] sampleTrace = true ∧
      ∃ st1 held log, mux (State.fresh 2 1) [] sampleTrace = some (st1, held, log) ∧
        st1.rp.numResources = st1.rp.idleResources.Size + (held.length : Int) ∧
        st1.rp.idleResources.Size = (st1.rp.idleResources.toList.length : Int) ∧
        0 ≤ st1.rp.numResources :=
  ⟨State.fresh_isNew 2 1, by decide,
    C3_resource_conservation 2 1 (State.fresh 2 1) sampleTrace (State.fresh_isNew 2 1)
      (by decide)⟩

/-- C4: in a well-formed state whose `activeWaits` is `w :: ws`, a release of a
resource that is not a closed closer sends that resource on `w.rch` and does
nothing else to the outside; `activeWaits` becomes `ws`, and `idleResources`
and `numResources` are unchanged. Consequently releases `r1..rN` of that kind,
`N` at most the number of waiters, are answered by the sends of `ri` to the
`i`-th waiter, in order, and leave the waiters after the `N`-th. -/
theorem C4_fifo_handoff (st : State) (hwf : st.WF) :
    (∀ (env : Env) (rel : releaseMessage) (w : acquireMessage) (ws : List acquireMessage),
      st.rp.activeWaits = w :: ws → closedNow env rel.r = false →
      ∃ st1, step env st (Msg.rel rel) = some (st1, [Effect.sendR w.rch rel.r]) ∧
        st1.rp.activeWaits = ws ∧ st1.rp.idleResources = st.rp.idleResources ∧
        st1.rp.numResources = st.rp.numResources) ∧
    (∀ (rels : List (Env × releaseMessage)) (held : List Resource),
      rels.length ≤ st.rp.activeWaits.length →
      (∀ e ∈ rels, closedNow e.1 e.2.r = false) →
      ∃ st1 held1, mux st held (rels.map (fun e => (e.1, Msg.rel e.2))) =
          some (st1, held1,
            List.zipWith (fun w e => Effect.sendR w.rch e.2.r) st.rp.activeWaits rels) ∧
        st1.rp.activeWaits = st.rp.activeWaits.drop rels.length ∧
        st1.rp.idleResources = st.rp.idleResources ∧
        st1.rp.numResources = st.rp.numResources) := by
  constructor
  · intro env rel w ws hw hc
    obtain ⟨st1, hS, _, h1, h2, h3, _⟩ := muxRel_handoff env st rel w ws hwf hw hc
    exact ⟨st1, hS, h1, h2, h3⟩
  · intro rels
    induction rels generalizing st with
    | nil =>
      intro held _ _
      exact ⟨st, held, by simp [mux], by simp, rfl, rfl⟩
    | cons e rels ih =>
      intro held hlen hcl
      cases hw : st.rp.activeWaits with
      | nil => rw [hw] at hlen; simp at hlen
      | cons w ws =>
        obtain ⟨st1, hS, hW1, h1, h2, h3, _⟩ := muxRel_handoff e.1 st e.2 w ws hwf hw
          (hcl e (List.mem_cons_self _ _))
        have hlen1 : rels.length ≤ st1.rp.activeWaits.length := by
          rw [hw] at hlen
          rw [h1]
          simpa using hlen
        obtain ⟨st2, held2, hS2, k1, k2, k3⟩ := ih st1 hW1
          (checkedOut held (Msg.rel e.2) [Effect.sendR w.rch e.2.r]) hlen1
          (fun x hx => hcl x (List.mem_cons_of_mem _ hx))
        refine ⟨st2, held2, ?_, ?_, by rw [k2, h2], by rw [k3, h3]⟩
        · simp only [List.map_cons, mux, hS, hS2, h1, List.zipWith_cons_cons,
            List.singleton_append]
        · rw [k1, h1]; simp

theorem C4_fifo_handoff_witness :
    parkedState.WF ∧
      mux (State.fresh 0 1) [] twoCallers =
        some (parkedState, [Resource.closer 1],
          [Effect.factory, Effect.sendR 0 (Resource.closer 1)]) ∧
      ∃ st1 held1, mux parkedState [Resource.closer 1]
          ([(Env.making (Resource.closer 3), (⟨Resource.closer 1⟩ : releaseMessage))].map
            (fun e => (e.1, Msg.rel e.2))) =
          some (st1, held1, List.zipWith (fun w e => Effect.sendR w.rch e.2.r)
            parkedState.rp.activeWaits
            [(Env.making (Resource.closer 3), (⟨Resource.closer 1⟩ : releaseMessage))]) ∧
        st1.rp.activeWaits = parkedState.rp.activeWaits.drop
          [(Env.making (Resource.closer 3), (⟨Resource.closer 1⟩ : releaseMessage))].length ∧
        st1.rp.idleResources = parkedState.rp.idleResources ∧
        st1.rp.numResources = parkedState.rp.numResources :=
  ⟨by decide, by decide,
    (C4_fifo_handoff parkedState (by decide)).2
      [(Env.making (Resource.closer 3), ⟨Resource.closer 1⟩)] [Resource.closer 1]
      (by decide) (by decide)⟩

/-- C5, as stated, fails: the pool never checks what the factory returns. In
the state with `maxResources = 1`, one caller served with object 1 and one
request parked, the release of object 1 while it reports closed, with a factory
that returns object 1 again, sends object 1 to the waiter. And from a new pool,
after object 1 has been handed out and released closed with nobody waiting, a
later acquire is answered with object 1, still closed, when the factory returns
it. -/
theorem C5_factory_returns_closed_resource :
    closedNow (Env.replacing (Resource.closer 1) [Resource.closer 1]) (Resource.closer 1) = true ∧
    (mux (State.fresh 0 1) [] twoCallers).map (fun res => res.1) = some parkedState ∧
    (step (Env.replacing (Resource.closer 1) [Resource.closer 1]) parkedState
        (Msg.rel ⟨Resource.closer 1⟩)).map (fun res => res.2) =
      some [Effect.factory, Effect.sendR 2 (Resource.closer 1)] ∧
    (∀ e ∈ reissuedTrace.tail, closedNow e.1 (Resource.closer 1) = true) ∧
    (mux (State.fresh 0 1) [] reissuedTrace).map (fun res => res.2.2) =
      some [Effect.factory, Effect.sendR 0 (Resource.closer 1),
        Effect.factory, Effect.sendR 2 (Resource.closer 1)] := by
  decide

/-- C5, amended: in a well-formed state, (1) a release of a resource that
reports closed leaves `idleResources` untouched and sends nothing but what the
factory call made in that step has returned, so the released resource goes to a
waiter only if the factory returns that very resource, and not otherwise; (2) whatever an acquire
sends is either an idle entry that did not report closed when dequeued or what
the factory call made in that step has returned; (3) hence along any trace
during which a resource `r` reports closed, `mux` handles every message and a
send carries `r` only if some step of the trace has called the factory and got
`r` from it. -/
theorem C5_closed_never_handed_out (st : State) (hwf : st.WF) :
    (∀ (env : Env) (rel : releaseMessage), closedNow env rel.r = true →
      ∃ st1 out, step env st (Msg.rel rel) = some (st1, out) ∧
        st1.rp.idleResources = st.rp.idleResources ∧
        (∀ ch r, Effect.sendR ch r ∈ out → Effect.factory ∈ out ∧ env.factory = (r, none)) ∧
        (env.factory ≠ (rel.r, none) → ∀ ch, Effect.sendR ch rel.r ∉ out)) ∧
    (∀ (env : Env) (acq : acquireMessage),
      ∃ st1 out, step env st (Msg.acq acq) = some (st1, out) ∧
        ∀ ch r, Effect.sendR ch r ∈ out → ch = acq.rch ∧
          ((closedNow env r = false ∧ r ∈ st.rp.idleResources.toList ∧ Effect.factory ∉ out) ∨
            (Effect.factory ∈ out ∧ env.factory = (r, none)))) ∧
    (∀ (trace : List (Env × Msg)) (held : List Resource) (r : Resource),
      (∀ e ∈ trace, closedNow e.1 r = true) →
      ∃ st1 held1 log, mux st held trace = some (st1, held1, log) ∧
        ∀ ch, Effect.sendR ch r ∈ log → factoryMade r st trace = true) := by
  refine ⟨fun env rel hc => ?_, fun env acq => ?_, fun trace held r h => ?_⟩
  · obtain ⟨st1, out, hS, hI, hsend⟩ := muxRel_closed env st rel hwf hc
    exact ⟨st1, out, hS, hI, hsend, fun hne ch hr => hne (hsend ch rel.r hr).2⟩
  · obtain ⟨st1, hS, _, _⟩ := step_model env st (Msg.acq acq) hwf
    exact ⟨st1, _, hS, fun ch r hr => Model.acq_sends env st.model acq ch r hr⟩
  · obtain ⟨st1, held1, log, hS, hL⟩ := mux_closed_sends st held trace r hwf h
    exact ⟨st1, held1, log, hS, fun ch hr => hL (mem_delivered ch r log hr)⟩

theorem C5_closed_never_handed_out_witness :
    parkedState.WF ∧
      ((∀ e ∈ closedTrace, closedNow e.1 (Resource.closer 1) = true) ∧
        factoryMade (Resource.closer 1) parkedState closedTrace = false ∧
        ∃ st1 held1 log, mux parkedState [Resource.closer 1] closedTrace =
            some (st1, held1, log) ∧
          ∀ ch, Effect.sendR ch (Resource.closer 1) ∈ log →
            factoryMade (Resource.closer 1) parkedState closedTrace = true) ∧
      ((∀ e ∈ sameObjectTrace, closedNow e.1 (Resource.closer 1) = true) ∧
        factoryMade (Resource.closer 1) parkedState sameObjectTrace = true ∧
        (mux parkedState [Resource.closer 1] sameObjectTrace).map (fun res => res.2.2) =
          some [Effect.factory, Effect.sendR 2 (Resource.closer 1)] ∧
        ∃ st1 held1 log, mux parkedState [Resource.closer 1] sameObjectTrace =
            some (st1, held1, log) ∧
          ∀ ch, Effect.sendR ch (Resource.closer 1) ∈ log →
            factoryMade (Resource.closer 1) parkedState sameObjectTrace = true) :=
  ⟨by decide,
    ⟨by decide, by decide,
      (C5_closed_never_handed_out parkedState (by decide)).2.2 closedTrace [Resource.closer 1]
        (Resource.closer 1) (by decide)⟩,
    ⟨by decide, by decide, by decide,
      (C5_closed_never_handed_out parkedState (by decide)).2.2 sameObjectTrace
        [Resource.closer 1] (Resource.closer 1) (by decide)⟩⟩

/-- C6: in a well-formed state, a close message makes `mux` call `Close()` once
on every idle-queue entry that is a closer, in queue order, and on nothing
else, then send the error "Resource pool closed", and no resource, once on the
error channel of every request in `activeWaits`; the idle queue is empty
afterwards. -/
theorem C6_close_drains_and_fails_waiters (env : Env) (st : State) (cm : closeMessage)
    (hwf : st.WF) :
    ∃ st1, step env st (Msg.cls cm) =
        some (st1, (st.rp.idleResources.toList.filter Resource.isCloser).map Effect.close ++
          st.rp.activeWaits.map (fun aw => Effect.sendE aw.ech "Resource pool closed")) ∧
      st1.rp.idleResources.Empty = true ∧ st1.rp.idleResources.toList = [] := by
  obtain ⟨st1, hS, hW, hM⟩ := step_model env st (Msg.cls cm) hwf
  have hidle : st1.model.idle = [] := by rw [hM]; rfl
  exact ⟨st1, hS, (ring_Empty_iff _ hW.1).2 hidle, hidle⟩

theorem C6_close_drains_and_fails_waiters_witness :
    drainState.WF ∧
      ∃ st1, step (Env.making Resource.nil) drainState (Msg.cls {}) =
          some (st1, (drainState.rp.idleResources.toList.filter Resource.isCloser).map
              Effect.close ++
            drainState.rp.activeWaits.map
              (fun aw => Effect.sendE aw.ech "Resource pool closed")) ∧
        st1.rp.idleResources.Empty = true ∧ st1.rp.idleResources.toList = [] :=
  ⟨by decide, C6_close_drains_and_fails_waiters (Env.making Resource.nil) drainState {}
    (by decide)⟩

/-- C7: with `maxResources = n ≥ 0`, any `idleCapacity` and a factory that does
not fail, a new pool handles `n` acquires, then the releases of the `n`
resources these obtained (closed or not), then `n` further acquires; the last
`n` requests are answered, in order, by one send of a resource each and no
error, no request is left in `activeWaits`, and `numResources` is `n` at the
end. -/
theorem C7_release_all_then_reacquire (ic : Int) (n : Nat) (st : State)
    (reqs1 : List (Env × acquireMessage)) (envs2 : List Env)
    (reqs3 : List (Env × acquireMessage)) (hnew : st.isNew ic (n : Int))
    (h1 : reqs1.length = n) (h2 : envs2.length = n) (h3 : reqs3.length = n)
    (hf1 : ∀ q ∈ reqs1, q.1.factory.2 = none) (hf3 : ∀ q ∈ reqs3, q.1.factory.2 = none) :
    ∃ st1 held1 log1, mux st [] (reqs1.map acqOf) = some (st1, held1, log1) ∧
      (delivered log1).length = n ∧
      ∃ st2 held2 log2,
        mux st1 held1 (List.zipWith (fun e r => (e, Msg.rel ⟨r⟩)) envs2 (delivered log1)) =
          some (st2, held2, log2) ∧
        ∃ st3 held3 log3, mux st2 held2 (reqs3.map acqOf) = some (st3, held3, log3) ∧
          (∃ rs, rs.length = n ∧
            responses log3 = List.zipWith (fun q r => Effect.sendR q.2.rch r) reqs3 rs) ∧
          st3.rp.activeWaits = [] ∧ st3.rp.numResources = (n : Int) := by
  obtain ⟨hi, _, hmx, hnum, hw⟩ := State.isNew_model st ic n hnew
  obtain ⟨st1, held1, log1, hS1, hW1, hE1⟩ := mux_model_eq st [] (reqs1.map acqOf) hnew.2
  obtain ⟨a1, a2, a3, rs1, a4, _, a6⟩ := Model.mux_acquires_served st.model [] reqs1 hw hf1
    (by right; rw [hi, hnum, hmx, h1]; simp)
  rw [hE1] at a1 a2 a3 a6
  simp only at a1 a2 a3 a6
  rw [hi, hnum, h1] at a2
  simp only [List.length_nil, Nat.cast_zero, sub_self, zero_add] at a2
  simp only [hi, List.length_nil, h1] at a3
  have hlen1 : (delivered log1).length = n := by rw [a6, a4, h1]
  refine ⟨st1, held1, log1, hS1, hlen1, ?_⟩
  obtain ⟨st2, held2, log2, hS2, hW2, hE2⟩ := mux_model_eq st1 held1
    (List.zipWith (fun e r => (e, Msg.rel ⟨r⟩)) envs2 (delivered log1)) hW1
  have hrel : ∀ e ∈ List.zipWith (fun e r => ((e, Msg.rel ⟨r⟩) : Env × Msg)) envs2
      (delivered log1), ∃ r, e.2 = Msg.rel r := by
    intro e he
    obtain ⟨i, _, hi2⟩ := List.getElem_of_mem he
    rw [List.getElem_zipWith] at hi2
    exact ⟨_, by rw [← hi2]⟩
  obtain ⟨b1, b2, b3⟩ := Model.mux_releases st1.model held1 _ hrel a1
  rw [hE2] at b1 b2 b3
  simp only at b1 b2 b3
  have hzl : (List.zipWith (fun e r => ((e, Msg.rel ⟨r⟩) : Env × Msg)) envs2
      (delivered log1)).length = n := by
    rw [List.length_zipWith, hlen1, h2, Nat.min_self]
  rw [hzl] at b2 b3
  refine ⟨st2, held2, log2, hS2, ?_⟩
  obtain ⟨st3, held3, log3, hS3, _, hE3⟩ := mux_model_eq st2 held2 (reqs3.map acqOf) hW2
  have hmx1 : st1.model.maxResources = (n : Int) := by
    have := Model.mux_maxResources st.model [] (reqs1.map acqOf)
    rw [hE1, hmx] at this
    exact this
  have hmx2 : st2.model.maxResources = (n : Int) := by
    have := Model.mux_maxResources st1.model held1
      (List.zipWith (fun e r => (e, Msg.rel ⟨r⟩)) envs2 (delivered log1))
    rw [hE2, hmx1] at this
    exact this
  have hb3 : st2.model.numResources - (st2.model.idle.length : Int) + (n : Int) ≤ (n : Int) := by
    rw [b2, a2]
    simp
  obtain ⟨c1, c2, c3, rs3, c4, c5, _⟩ := Model.mux_acquires_served st2.model held2 reqs3 b1 hf3
    (by right; rw [hmx2, h3]; exact hb3)
  rw [hE3] at c1 c2 c3 c5
  simp only at c1 c2 c3 c5
  rw [h3] at c2 c3
  have e1 : st3.model.numResources = (n : Int) :=
    three_phase_count n _ _ _ _ _ _ a2 a3 b2 b3 c2 c3
  exact ⟨st3, held3, log3, hS3, ⟨rs3, by rw [c4, h3], c5⟩, c1, e1⟩

theorem C7_release_all_then_reacquire_witness :
    (State.fresh 1 2).isNew 1 ((2 : Nat) : Int) ∧ firstCallers.length = 2 ∧
      [Env.making Resource.nil, Env.making Resource.nil].length = 2 ∧
      laterCallers.length = 2 ∧ (∀ q ∈ firstCallers, q.1.factory.2 = none) ∧
      (∀ q ∈ laterCallers, q.1.factory.2 = none) ∧
      ∃ st1 held1 log1, mux (State.fresh 1 2) [] (firstCallers.map acqOf) =
          some (st1, held1, log1) ∧
        (delivered log1).length = 2 ∧
        ∃ st2 held2 log2,
          mux st1 held1 (List.zipWith (fun e r => (e, Msg.rel ⟨r⟩))
              [Env.making Resource.nil, Env.making Resource.nil] (delivered log1)) =
            some (st2, held2, log2) ∧
          ∃ st3 held3 log3, mux st2 held2 (laterCallers.map acqOf) = some (st3, held3, log3) ∧
            (∃ rs, rs.length = 2 ∧
              responses log3 =
                List.zipWith (fun q r => Effect.sendR q.2.rch r) laterCallers rs) ∧
            st3.rp.activeWaits = [] ∧ st3.rp.numResources = ((2 : Nat) : Int) :=
  ⟨State.fresh_isNew 1 2, by decide, by decide, by decide, by decide, by decide,
    C7_release_all_then_reacquire 1 2 (State.fresh 1 2) firstCallers
      [Env.making Resource.nil, Env.making Resource.nil] laterCallers (State.fresh_isNew 1 2)
      (by decide) (by decide) (by decide) (by decide) (by decide)⟩

/-- C8: for a pool created with a bound `idleCapacity ≥ 0`, `mux` handles every
trace of messages (whatever is released and whatever the factory answers), and
`idleResources.Size()` is at most `idleCapacity` afterwards; the trace being
arbitrary, this holds after every step. -/
theorem C8_idle_size_le_idleCapacity (ic mx : Int) (st : State) (trace : List (Env × Msg))
    (hic : 0 ≤ ic) (hnew : st.isNew ic mx) :
    ∃ st1 held log, mux st [] trace = some (st1, held, log) ∧
      st1.rp.idleResources.Size ≤ ic := by
  obtain ⟨hi, hic1, _, _, _⟩ := State.isNew_model st ic mx hnew
  obtain ⟨st1, hS, hW, hM⟩ := mux_model st [] trace hnew.2
  have h := Model.mux_idle_le st.model [] trace (by rw [hi, hic1]; simpa using hic)
  rw [← hM, hic1] at h
  refine ⟨st1, _, _, hS, ?_⟩
  rw [ring_Size_eq _ hW.1]
  exact h

theorem C8_idle_size_le_idleCapacity_witness :
    (0 : Int) ≤ 2 ∧ (State.fresh 2 1).isNew 2 1 ∧
      ∃ st1 held log, mux (State.fresh 2 1) [] mixedTrace = some (st1, held, log) ∧
        st1.rp.idleResources.Size ≤ 2 :=
  ⟨by decide, State.fresh_isNew 2 1,
    C8_idle_size_le_idleCapacity 2 1 (State.fresh 2 1) mixedTrace (by decide)
      (State.fresh_isNew 2 1)⟩

/-- C9: on the zero-valued ring, every sequence of `Enqueue`, `Dequeue`, `Peek`,
`Size` and `Empty` calls in which `Empty()` is false before each `Dequeue` and
each `Peek` returns without panic exactly the values the list model returns
from the empty list, and leaves a ring that stands for the model's final list,
whose `Size()` is its length and whose `Empty()` tells whether it is empty. -/
theorem C9_ring_is_fifo (ops : List RingOp) (hg : ring.zero.guarded ops = true) :
    ∃ q rets rb, Fifo.calls [] ops = some (q, rets) ∧ ring.zero.calls ops = some (rb, rets) ∧
      rb.WF ∧ rb.toList = q ∧ rb.Size = (q.length : Int) ∧ (rb.Empty = true ↔ q = []) := by
  have h0 : ring.zero.toList = [] := by simp [ring.toList, ring.zero]
  obtain ⟨q, rets, hF⟩ := ring_guarded_spec ring.zero ops ring_zero_WF hg
  obtain ⟨rb, hC, hW, hL⟩ := ring_calls_spec ring.zero ops q rets ring_zero_WF hF
  rw [h0] at hF
  refine ⟨q, rets, rb, hF, hC, hW, hL, ?_, ?_⟩
  · rw [ring_Size_eq rb hW, hL]
  · rw [ring_Empty_iff rb hW, hL]

theorem C9_ring_is_fifo_witness :
    ring.zero.guarded sampleCalls = true ∧
      Fifo.calls [] sampleCalls =
        some ([Resource.plain 3, Resource.plain 4, Resource.plain 5],
          [RingRet.empty true, RingRet.unit, RingRet.unit, RingRet.value (Resource.plain 1),
            RingRet.unit, RingRet.unit, RingRet.size 3, RingRet.unit,
            RingRet.value (Resource.plain 2), RingRet.value (Resource.plain 2),
            RingRet.size 3, RingRet.empty false]) ∧
      ∃ q rets rb, Fifo.calls [] sampleCalls = some (q, rets) ∧
        ring.zero.calls sampleCalls = some (rb, rets) ∧
        rb.WF ∧ rb.toList = q ∧ rb.Size = (q.length : Int) ∧ (rb.Empty = true ↔ q = []) :=
  ⟨by decide, by decide, C9_ring_is_fifo sampleCalls (by decide)⟩

/-- C10: on a well-formed ring that is full (`cnt` equals the storage length
`c`), whatever the start index, `Enqueue(x)` returns with a storage of length
`2*c+1` and start index 0; slots `0..c-1` hold the old elements in queue order
(slot `k` holds what was in slot `(i+k) % c`, slot 0 the old head), slot `c`
holds `x`. On a well-formed ring that is not full, `Enqueue` returns and
keeps the storage length. -/
theorem C10_ring_growth (rb : ring) (x : Resource) (hwf : rb.WF) :
    (rb.cnt = rb.data.length →
      ∃ rb1, rb.Enqueue x = some rb1 ∧ rb1.data.length = 2 * rb.data.length + 1 ∧ rb1.i = 0 ∧
        rb1.cnt = rb.cnt + 1 ∧ rb1.data.take rb.data.length = rb.toList ∧
        (∀ k, k < rb.data.length →
          rb1.data[k]? = rb.data[(rb.i.toNat + k) % rb.data.length]?) ∧
        (0 < rb.data.length → rb1.data[0]? = rb.Peek) ∧
        rb1.data[rb.data.length]? = some x) ∧
    (rb.cnt < rb.data.length →
      ∃ rb1, rb.Enqueue x = some rb1 ∧ rb1.data.length = rb.data.length) := by
  obtain ⟨cnt, i, data⟩ := rb
  obtain ⟨h0, h1, h2, h3⟩ := hwf
  simp only at h0 h1 h2 h3
  lift cnt to ℕ using h0
  lift i to ℕ using h2
  have hc : cnt ≤ data.length := by exact_mod_cast h1
  have hi : i ≤ data.length := by
    rcases h3 with h3 | ⟨h3, _⟩
    · have : i < data.length := by exact_mod_cast h3
      omega
    · have : i = 0 := by exact_mod_cast h3
      omega
  refine ⟨fun hfull => ?_, fun hlt => ?_⟩
  · simp only at hfull
    have hceq : data.length = cnt := by exact_mod_cast hfull.symm
    have hrot : data.drop i ++ data.take i = data.rotate i :=
      (List.rotate_eq_drop_append_take hi).symm
    have hlen : (data.rotate i).length = data.length := List.length_rotate _ _
    refine ⟨_, ring_Enqueue_full cnt i data x hceq (by omega), ?_, rfl, rfl, ?_, ?_, ?_, ?_⟩
    · simp only [List.length_append, List.length_drop, List.length_take, List.length_cons,
        List.length_replicate]
      omega
    · simp only [hrot]
      rw [ring_toList_natCast, List.take_append_of_le_length (by omega), hceq]
    · intro k hk
      simp only [hrot, Int.toNat_ofNat]
      rw [List.getElem?_append_left (by rw [hlen]; exact hk), List.getElem?_rotate hk,
        Nat.add_comm]
    · intro hpos
      simp only [hrot, ring.Peek, ring.peekWithLock, index, Int.toNat_ofNat]
      rw [List.getElem?_append_left (by rw [hlen]; exact hpos), List.getElem?_rotate hpos]
      have hil : i < data.length := by
        rcases h3 with h3 | ⟨_, h3⟩
        · exact_mod_cast h3
        · subst h3; simp at hpos
      simp [Nat.mod_eq_of_lt hil]
    · simp only [hrot]
      rw [List.getElem?_append_right (by omega), hlen]
      simp
  · simp only at hlt
    have hlt2 : cnt < data.length := by exact_mod_cast hlt
    exact ⟨_, ring_Enqueue_notFull cnt i data x hlt2, by simp⟩

theorem C10_ring_growth_witness :
    fullRing.WF ∧
      ∃ rb1, fullRing.Enqueue (Resource.plain 5) = some rb1 ∧
        rb1.data.length = 2 * fullRing.data.length + 1 ∧ rb1.i = 0 ∧
        rb1.cnt = fullRing.cnt + 1 ∧ rb1.data.take fullRing.data.length = fullRing.toList ∧
        (∀ k, k < fullRing.data.length →
          rb1.data[k]? = fullRing.data[(fullRing.i.toNat + k) % fullRing.data.length]?) ∧
        (0 < fullRing.data.length → rb1.data[0]? = fullRing.Peek) ∧
        rb1.data[fullRing.data.length]? = some (Resource.plain 5) :=
  ⟨by decide, (C10_ring_growth fullRing (Resource.plain 5) (by decide)).1 (by decide)⟩

/-- C11: in a well-formed state with empty `activeWaits`, a release of `r`
returns and has one of three outcomes, `activeWaits` staying empty: (a) if `r`
is nil or a closer that reports closed, nothing is done to the outside,
`numResources` drops by one and `idleResources` is untouched; (b) otherwise, if
`idleCapacity != -1` and `Size()` equals `idleCapacity`, `Close()` is called on
`r` exactly when it is a closer, `numResources` drops by one and
`idleResources` is untouched; (c) otherwise `r` is appended at the tail of the
idle queue and `numResources` is unchanged. -/
theorem C11_ordinary_release (env : Env) (st : State) (rel : releaseMessage) (hwf : st.WF)
    (hw : st.rp.activeWaits = []) :
    ∃ st1 out, step env st (Msg.rel rel) = some (st1, out) ∧ st1.rp.activeWaits = [] ∧
      ((rel.r = Resource.nil ∨ closedNow env rel.r = true) →
        out = [] ∧ st1.rp.numResources = st.rp.numResources - 1 ∧
          st1.rp.idleResources = st.rp.idleResources) ∧
      (¬ (rel.r = Resource.nil ∨ closedNow env rel.r = true) →
        (st.rp.idleCapacity ≠ -1 ∧ st.rp.idleResources.Size = st.rp.idleCapacity) →
        out = (if rel.r.isCloser then [Effect.close rel.r] else []) ∧
          st1.rp.numResources = st.rp.numResources - 1 ∧
          st1.rp.idleResources = st.rp.idleResources) ∧
      (¬ (rel.r = Resource.nil ∨ closedNow env rel.r = true) →
        ¬ (st.rp.idleCapacity ≠ -1 ∧ st.rp.idleResources.Size = st.rp.idleCapacity) →
        out = [] ∧ st1.rp.numResources = st.rp.numResources ∧
          st1.rp.idleResources.toList = st.rp.idleResources.toList ++ [rel.r] ∧
          st1.rp.idleResources.Size = st.rp.idleResources.Size + 1) := by
  obtain ⟨rr, _, _, hstep⟩ := muxRel_idle env st rel hwf hw
  have hcl : (rel.r.isCloser && env.IsClosed rel.r) = closedNow env rel.r := rfl
  by_cases ha : rel.r = Resource.nil ∨ closedNow env rel.r = true
  · have hcond : (rel.r == Resource.nil || closedNow env rel.r) = true := by
      rcases ha with ha | ha
      · simp [ha]
      · simp [ha]
    have hrel : st.rp.release env rel.r =
        some ({ st.rp with numResources := st.rp.numResources - 1 }, []) := by
      simp only [ResourcePool.release, hcl, hcond, if_true]
    exact ⟨_, _, hstep _ _ hrel, hw, fun _ => ⟨rfl, rfl, rfl⟩, fun hn => absurd ha hn,
      fun hn => absurd ha hn⟩
  · have hcond : (rel.r == Resource.nil || closedNow env rel.r) = false := by
      simp only [not_or, Bool.not_eq_true] at ha
      simp [ha.1, ha.2]
    by_cases hb : st.rp.idleCapacity ≠ -1 ∧ st.rp.idleResources.Size = st.rp.idleCapacity
    · have hfull : (st.rp.idleCapacity != -1 &&
          st.rp.idleResources.Size == st.rp.idleCapacity) = true := by
        simp [hb.1, hb.2]
      have hrel : st.rp.release env rel.r =
          some ({ st.rp with numResources := st.rp.numResources - 1 },
            if rel.r.isCloser then [Effect.close rel.r] else []) := by
        simp only [ResourcePool.release, hcl, hcond, Bool.false_eq_true, if_false, hfull,
          if_true]
      exact ⟨_, _, hstep _ _ hrel, hw, fun h => absurd h ha, fun _ _ => ⟨rfl, rfl, rfl⟩,
        fun _ hn => absurd hb hn⟩
    · have hfull : (st.rp.idleCapacity != -1 &&
          st.rp.idleResources.Size == st.rp.idleCapacity) = false := by
        simp only [not_and, ne_eq] at hb
        by_cases h1 : st.rp.idleCapacity = -1
        · simp [h1]
        · simp [hb h1]
      obtain ⟨rb, hE, hEW, hEL⟩ := ring_Enqueue_spec st.rp.idleResources rel.r hwf.1
      have hrel : st.rp.release env rel.r =
          some ({ st.rp with idleResources := rb }, []) := by
        simp only [ResourcePool.release, hcl, hcond, Bool.false_eq_true, if_false, hfull, hE,
          Option.bind_eq_bind, Option.some_bind]
      refine ⟨_, _, hstep _ _ hrel, hw, fun h => absurd h ha, fun _ h => absurd h hb,
        fun _ _ => ⟨rfl, rfl, hEL, ?_⟩⟩
      simp only
      rw [ring_Size_eq _ hEW, ring_Size_eq _ hwf.1, hEL]
      simp

theorem C11_ordinary_release_witness :
    fullIdleState.WF ∧ fullIdleState.rp.activeWaits = [] ∧
      (mux (State.fresh 2 3) [] threeThenTwo).map (fun res => (res.1, res.2.1)) =
        some (fullIdleState, [Resource.closer 3]) ∧
      (step (Env.making Resource.nil) fullIdleState (Msg.rel ⟨Resource.closer 3⟩)).map
          (fun res => (res.1.rp.NumResources, res.2)) =
        some (2, [Effect.close (Resource.closer 3)]) ∧
      ∃ st1 out, step (Env.making Resource.nil) fullIdleState (Msg.rel ⟨Resource.closer 3⟩) =
          some (st1, out) ∧ st1.rp.activeWaits = [] ∧
        ((Resource.closer 3 = Resource.nil ∨
            closedNow (Env.making Resource.nil) (Resource.closer 3) = true) →
          out = [] ∧ st1.rp.numResources = fullIdleState.rp.numResources - 1 ∧
            st1.rp.idleResources = fullIdleState.rp.idleResources) ∧
        (¬ (Resource.closer 3 = Resource.nil ∨
            closedNow (Env.making Resource.nil) (Resource.closer 3) = true) →
          (fullIdleState.rp.idleCapacity ≠ -1 ∧
            fullIdleState.rp.idleResources.Size = fullIdleState.rp.idleCapacity) →
          out = (if (Resource.closer 3).isCloser then [Effect.close (Resource.closer 3)]
            else []) ∧
            st1.rp.numResources = fullIdleState.rp.numResources - 1 ∧
            st1.rp.idleResources = fullIdleState.rp.idleResources) ∧
        (¬ (Resource.closer 3 = Resource.nil ∨
            closedNow (Env.making Resource.nil) (Resource.closer 3) = true) →
          ¬ (fullIdleState.rp.idleCapacity ≠ -1 ∧
            fullIdleState.rp.idleResources.Size = fullIdleState.rp.idleCapacity) →
          out = [] ∧ st1.rp.numResources = fullIdleState.rp.numResources ∧
            st1.rp.idleResources.toList =
              fullIdleState.rp.idleResources.toList ++ [Resource.closer 3] ∧
            st1.rp.idleResources.Size = fullIdleState.rp.idleResources.Size + 1) :=
  ⟨by decide, by decide, by decide, by decide,
    C11_ordinary_release (Env.making Resource.nil) fullIdleState ⟨Resource.closer 3⟩
      (by decide) (by decide)⟩

/-- C12: in a well-formed state whose idle queue is empty and whose pool is not
saturated (`maxResources = -1` or `numResources < maxResources`), an acquire
calls the factory once. If the factory returns an error, that error is sent on
the requester's error channel, nothing else is sent, and the pool
(`numResources`, `idleResources`, `activeWaits`) is unchanged. If it succeeds,
its resource is sent on the requester's response channel and `numResources`
grows by one, the rest of the pool being unchanged. -/
theorem C12_factory_outcome_on_acquire (env : Env) (st : State) (acq : acquireMessage)
    (hwf : st.WF) (hidle : st.rp.idleResources.Empty = true)
    (hroom : st.rp.maxResources = -1 ∨ st.rp.numResources < st.rp.maxResources) :
    (∀ r err, env.factory = (r, some err) →
      ∃ st1, step env st (Msg.acq acq) =
          some (st1, [Effect.factory, Effect.sendE acq.ech err]) ∧ st1.rp = st.rp) ∧
    (∀ r, env.factory = (r, none) →
      ∃ st1, step env st (Msg.acq acq) =
          some (st1, [Effect.factory, Effect.sendR acq.rch r]) ∧
        st1.rp = { st.rp with numResources := st.rp.numResources + 1 }) := by
  obtain ⟨ar, hP, _, _⟩ := namedRing_put_spec st.acqRing (Resource.acq acq) hwf.2.1
  have hL := acquireLoop_empty env st.rp.idleResources.cnt.toNat st.rp hidle
  have hpark : (st.rp.maxResources != -1 &&
      decide (st.rp.numResources ≥ st.rp.maxResources)) = false := by
    rcases hroom with h | h
    · simp [h]
    · have : ¬ st.rp.maxResources ≤ st.rp.numResources := by omega
      simp [this]
  constructor
  · intro r err hf
    refine ⟨⟨st.rp, ar, st.relRing, st.clsRing⟩, ?_, rfl⟩
    simp only [step, muxAcq, ResourcePool.acquire, hL, Option.bind_eq_bind, Option.some_bind,
      hpark, Bool.false_eq_true, if_false, hf, hP]
  · intro r hf
    refine ⟨⟨{ st.rp with numResources := st.rp.numResources + 1 }, ar, st.relRing,
      st.clsRing⟩, ?_, rfl⟩
    simp only [step, muxAcq, ResourcePool.acquire, hL, Option.bind_eq_bind, Option.some_bind,
      hpark, Bool.false_eq_true, if_false, hf, hP]

theorem C12_factory_outcome_on_acquire_witness :
    (State.fresh 2 1).WF ∧ (State.fresh 2 1).rp.idleResources.Empty = true ∧
      ((State.fresh 2 1).rp.maxResources = -1 ∨
        (State.fresh 2 1).rp.numResources < (State.fresh 2 1).rp.maxResources) ∧
      (Env.failing "no route" []).factory = (Resource.nil, some "no route") ∧
      ∃ st1, step (Env.failing "no route" []) (State.fresh 2 1) (Msg.acq ⟨0, 1⟩) =
          some (st1, [Effect.factory, Effect.sendE 1 "no route"]) ∧
        st1.rp = (State.fresh 2 1).rp :=
  ⟨by decide, by decide, by decide, rfl,
    (C12_factory_outcome_on_acquire (Env.failing "no route" []) (State.fresh 2 1) ⟨0, 1⟩
      (by decide) (by decide) (by decide)).1 Resource.nil "no route" rfl⟩

/-- C13: in a well-formed state, (1) if the idle queue is `skipped ++ r :: rest`
where every entry of `skipped` is a closer that reports closed and `r` is not,
an acquire sends `r` on the requester's response channel and nothing else,
leaves `rest` as the idle queue, lowers `numResources` by the length of
`skipped`, and parks nobody; (2) if every entry of the idle queue reports
closed, the idle queue ends empty and the saturation test is made on
`numResources` minus the length of the queue: when it holds the request is
parked with that count, otherwise the factory decides from that count. -/
theorem C13_idle_scan (env : Env) (st : State) (acq : acquireMessage) (hwf : st.WF) :
    (∀ (skipped rest : List Resource) (r : Resource),
      st.rp.idleResources.toList = skipped ++ r :: rest →
      (∀ x ∈ skipped, closedNow env x = true) → closedNow env r = false →
      ∃ st1, step env st (Msg.acq acq) = some (st1, [Effect.sendR acq.rch r]) ∧
        st1.rp.idleResources.toList = rest ∧
        st1.rp.numResources = st.rp.numResources - (skipped.length : Int) ∧
        st1.rp.activeWaits = st.rp.activeWaits) ∧
    ((∀ x ∈ st.rp.idleResources.toList, closedNow env x = true) →
      ∃ st1 out, step env st (Msg.acq acq) = some (st1, out) ∧
        st1.rp.idleResources.toList = [] ∧ st1.rp.idleResources.Empty = true ∧
        ((st.rp.maxResources ≠ -1 ∧ st.rp.maxResources ≤
            st.rp.numResources - (st.rp.idleResources.toList.length : Int)) →
          out = [] ∧ st1.rp.activeWaits = st.rp.activeWaits ++ [acq] ∧
            st1.rp.numResources =
              st.rp.numResources - (st.rp.idleResources.toList.length : Int)) ∧
        (¬ (st.rp.maxResources ≠ -1 ∧ st.rp.maxResources ≤
            st.rp.numResources - (st.rp.idleResources.toList.length : Int)) →
          (∀ r err, env.factory = (r, some err) →
            out = [Effect.factory, Effect.sendE acq.ech err] ∧
              st1.rp.numResources =
                st.rp.numResources - (st.rp.idleResources.toList.length : Int)) ∧
          (∀ r, env.factory = (r, none) →
            out = [Effect.factory, Effect.sendR acq.rch r] ∧
              st1.rp.numResources =
                st.rp.numResources - (st.rp.idleResources.toList.length : Int) + 1))) := by
  constructor
  · intro skipped rest r hq hs hr
    obtain ⟨st1, hS, _, hM⟩ := step_model_eq env st (Msg.acq acq) _ _ hwf
      (Model.acq_scan_hit env st.model acq skipped rest r hq hs hr)
    exact ⟨st1, hS, congrArg Model.idle hM, congrArg Model.numResources hM,
      congrArg Model.activeWaits hM⟩
  · intro hs
    by_cases hp : st.rp.maxResources ≠ -1 ∧ st.rp.maxResources ≤
        st.rp.numResources - (st.rp.idleResources.toList.length : Int)
    · obtain ⟨st1, hS, hW, hM⟩ := step_model_eq env st (Msg.acq acq) _ _ hwf
        (Model.acq_scan_park env st.model acq hs hp)
      have hi : st1.rp.idleResources.toList = [] := congrArg Model.idle hM
      exact ⟨st1, _, hS, hi, (ring_Empty_iff _ hW.1).2 hi,
        fun _ => ⟨rfl, congrArg Model.activeWaits hM, congrArg Model.numResources hM⟩,
        fun hn => absurd hp hn⟩
    · obtain ⟨he, hok⟩ := Model.acq_scan_make env st.model acq hs hp
      rcases hfac : env.factory with ⟨r, _ | err⟩
      · obtain ⟨st1, hS, hW, hM⟩ := step_model_eq env st (Msg.acq acq) _ _ hwf (hok r hfac)
        have hi : st1.rp.idleResources.toList = [] := congrArg Model.idle hM
        refine ⟨st1, _, hS, hi, (ring_Empty_iff _ hW.1).2 hi, fun h => absurd h hp,
          fun _ => ⟨fun r2 err h2 => ?_, fun r2 h2 => ?_⟩⟩
        · simp at h2
        · simp only [Prod.mk.injEq, and_true] at h2
          subst h2
          exact ⟨rfl, congrArg Model.numResources hM⟩
      · obtain ⟨st1, hS, hW, hM⟩ := step_model_eq env st (Msg.acq acq) _ _ hwf
          (he r err hfac)
        have hi : st1.rp.idleResources.toList = [] := congrArg Model.idle hM
        refine ⟨st1, _, hS, hi, (ring_Empty_iff _ hW.1).2 hi, fun h => absurd h hp,
          fun _ => ⟨fun r2 err2 h2 => ?_, fun r2 h2 => ?_⟩⟩
        · simp only [Prod.mk.injEq, Option.some.injEq] at h2
          obtain ⟨_, h3⟩ := h2
          subst h3
          exact ⟨rfl, congrArg Model.numResources hM⟩
        · simp at h2

theorem C13_idle_scan_witness :
    fullIdleState.WF ∧
      fullIdleState.rp.idleResources.toList =
        [Resource.closer 1] ++ Resource.closer 2 :: [] ∧
      (∀ x ∈ [Resource.closer 1],
        closedNow (Env.replacing Resource.nil [Resource.closer 1]) x = true) ∧
      closedNow (Env.replacing Resource.nil [Resource.closer 1]) (Resource.closer 2) = false ∧
      ∃ st1, step (Env.replacing Resource.nil [Resource.closer 1]) fullIdleState
            (Msg.acq ⟨6, 7⟩) = some (st1, [Effect.sendR 6 (Resource.closer 2)]) ∧
        st1.rp.idleResources.toList = [] ∧
        st1.rp.numResources =
          fullIdleState.rp.numResources - (([Resource.closer 1] : List Resource).length : Int) ∧
        st1.rp.activeWaits = fullIdleState.rp.activeWaits :=
  ⟨by decide, by decide, by decide, by decide,
    (C13_idle_scan (Env.replacing Resource.nil [Resource.closer 1]) fullIdleState ⟨6, 7⟩
      (by decide)).1 [Resource.closer 1] [] (Resource.closer 2) (by decide) (by decide)
      (by decide)⟩

/-- C14: in a well-formed state whose idle queue holds no usable resource
(every entry is a closer that reports closed), an acquire is parked exactly
when `maxResources != -1` and the `numResources` read after the idle scan (the
count minus the closed entries discarded) is at least `maxResources`. When it
is parked, the request is appended at the tail of `activeWaits`, the factory is
not called, nothing is sent, and `numResources` stays at the value read after
the scan: the count before the step whenever the idle queue was empty or the
count did not exceed `maxResources`. When it is not parked the factory is
called and `activeWaits` is unchanged. -/
theorem C14_parking (env : Env) (st : State) (acq : acquireMessage) (hwf : st.WF)
    (hnone : ∀ x ∈ st.rp.idleResources.toList, closedNow env x = true) :
    ∃ st1 out, step env st (Msg.acq acq) = some (st1, out) ∧
      (st1.rp.activeWaits = st.rp.activeWaits ++ [acq] ↔
        (st.rp.maxResources ≠ -1 ∧ st.rp.maxResources ≤
          st.rp.numResources - (st.rp.idleResources.toList.length : Int))) ∧
      (st1.rp.activeWaits = st.rp.activeWaits ++ [acq] →
        out = [] ∧
          st1.rp.numResources =
            st.rp.numResources - (st.rp.idleResources.toList.length : Int) ∧
          ((st.rp.idleResources.toList = [] ∨ st.rp.numResources ≤ st.rp.maxResources) →
            st1.rp.numResources = st.rp.numResources)) ∧
      (st1.rp.activeWaits ≠ st.rp.activeWaits ++ [acq] →
        st1.rp.activeWaits = st.rp.activeWaits ∧ Effect.factory ∈ out) := by
  have hne : st.rp.activeWaits ≠ st.rp.activeWaits ++ [acq] := by
    intro h
    have := congrArg List.length h
    simp at this
  by_cases hp : st.rp.maxResources ≠ -1 ∧ st.rp.maxResources ≤
      st.rp.numResources - (st.rp.idleResources.toList.length : Int)
  · obtain ⟨st1, hS, _, hM⟩ := step_model_eq env st (Msg.acq acq) _ _ hwf
      (Model.acq_scan_park env st.model acq hnone hp)
    have hw : st1.rp.activeWaits = st.rp.activeWaits ++ [acq] := congrArg Model.activeWaits hM
    have hn : st1.rp.numResources =
        st.rp.numResources - (st.rp.idleResources.toList.length : Int) :=
      congrArg Model.numResources hM
    refine ⟨st1, _, hS, ⟨fun _ => hp, fun _ => hw⟩, fun _ => ⟨rfl, hn, fun h => ?_⟩,
      fun h => absurd hw h⟩
    rw [hn]
    rcases h with h | h
    · simp [h]
    · have h0 : (0 : Int) ≤ (st.rp.idleResources.toList.length : Int) := by positivity
      have h1 := hp.2
      omega
  · obtain ⟨he, hok⟩ := Model.acq_scan_make env st.model acq hnone hp
    rcases hfac : env.factory with ⟨r, _ | err⟩
    · obtain ⟨st1, hS, _, hM⟩ := step_model_eq env st (Msg.acq acq) _ _ hwf (hok r hfac)
      have hw : st1.rp.activeWaits = st.rp.activeWaits := congrArg Model.activeWaits hM
      exact ⟨st1, _, hS, ⟨fun h => absurd (hw ▸ h) hne, fun h => absurd h hp⟩,
        fun h => absurd (hw ▸ h) hne, fun _ => ⟨hw, by simp⟩⟩
    · obtain ⟨st1, hS, _, hM⟩ := step_model_eq env st (Msg.acq acq) _ _ hwf (he r err hfac)
      have hw : st1.rp.activeWaits = st.rp.activeWaits := congrArg Model.activeWaits hM
      exact ⟨st1, _, hS, ⟨fun h => absurd (hw ▸ h) hne, fun h => absurd h hp⟩,
        fun h => absurd (hw ▸ h) hne, fun _ => ⟨hw, by simp⟩⟩

theorem C14_parking_witness :
    parkedState.WF ∧
      (∀ x ∈ parkedState.rp.idleResources.toList,
        closedNow (Env.making (Resource.closer 5)) x = true) ∧
      (step (Env.making (Resource.closer 5)) parkedState (Msg.acq ⟨4, 5⟩)).map
          (fun res => (res.1.rp.activeWaits, res.1.rp.numResources, res.2)) =
        some ([⟨2, 3⟩, ⟨4, 5⟩], 1, []) ∧
      ∃ st1 out, step (Env.making (Resource.closer 5)) parkedState (Msg.acq ⟨4, 5⟩) =
          some (st1, out) ∧
        (st1.rp.activeWaits = parkedState.rp.activeWaits ++ [⟨4, 5⟩] ↔
          (parkedState.rp.maxResources ≠ -1 ∧ parkedState.rp.maxResources ≤
            parkedState.rp.numResources -
              (parkedState.rp.idleResources.toList.length : Int))) ∧
        (st1.rp.activeWaits = parkedState.rp.activeWaits ++ [⟨4, 5⟩] →
          out = [] ∧
            st1.rp.numResources =
              parkedState.rp.numResources -
                (parkedState.rp.idleResources.toList.length : Int) ∧
            ((parkedState.rp.idleResources.toList = [] ∨
                parkedState.rp.numResources ≤ parkedState.rp.maxResources) →
              st1.rp.numResources = parkedState.rp.numResources)) ∧
        (st1.rp.activeWaits ≠ parkedState.rp.activeWaits ++ [⟨4, 5⟩] →
          st1.rp.activeWaits = parkedState.rp.activeWaits ∧ Effect.factory ∈ out) :=
  ⟨by decide, by decide, by decide,
    C14_parking (Env.making (Resource.closer 5)) parkedState ⟨4, 5⟩ (by decide) (by decide)⟩

/-- C15: in a well-formed state whose `activeWaits` is `w :: ws`, a release of
a closer that reports closed calls the factory once and removes `w` from
`activeWaits`. If the factory returns an error, the error is sent on `w.ech`,
nothing else is sent, and `numResources` drops by one. If it succeeds, its
resource is sent on `w.rch`, nothing else is sent, and `numResources` is
unchanged. In both cases the pool sends the released resource to nobody and
`idleResources` is untouched. -/
theorem C15_replacement_for_waiter (env : Env) (st : State) (rel : releaseMessage)
    (w : acquireMessage) (ws : List acquireMessage) (hwf : st.WF)
    (hw : st.rp.activeWaits = w :: ws) (hc : closedNow env rel.r = true) :
    (∀ r err, env.factory = (r, some err) →
      ∃ st1, step env st (Msg.rel rel) =
          some (st1, [Effect.factory, Effect.sendE w.ech err]) ∧
        st1.rp.activeWaits = ws ∧ st1.rp.numResources = st.rp.numResources - 1 ∧
        st1.rp.idleResources = st.rp.idleResources) ∧
    (∀ r, env.factory = (r, none) →
      ∃ st1, step env st (Msg.rel rel) =
          some (st1, [Effect.factory, Effect.sendR w.rch r]) ∧
        st1.rp.activeWaits = ws ∧ st1.rp.numResources = st.rp.numResources ∧
        st1.rp.idleResources = st.rp.idleResources) := by
  obtain ⟨rr, hP, _, _⟩ := namedRing_put_spec st.relRing (Resource.rel rel.r) hwf.2.2.1
  constructor
  · intro r err hf
    refine ⟨⟨⟨st.rp.idleResources, st.rp.idleCapacity, st.rp.maxResources,
      st.rp.numResources - 1, ws⟩, st.acqRing, rr, st.clsRing⟩, ?_, rfl, rfl, rfl⟩
    simp only [step, muxRel, hw, closedNow_not, hc, Bool.not_true, Bool.false_eq_true,
      if_false, hf, Option.bind_eq_bind, Option.some_bind, hP]
  · intro r hf
    refine ⟨⟨{ st.rp with activeWaits := ws }, st.acqRing, rr, st.clsRing⟩, ?_, rfl, rfl, rfl⟩
    simp only [step, muxRel, hw, closedNow_not, hc, Bool.not_true, Bool.false_eq_true,
      if_false, hf, Option.bind_eq_bind, Option.some_bind, hP]

theorem C15_replacement_for_waiter_witness :
    parkedState.WF ∧ parkedState.rp.activeWaits = ⟨2, 3⟩ :: [] ∧
      closedNow (Env.failing "no route" [Resource.closer 1]) (Resource.closer 1) = true ∧
      (Env.failing "no route" [Resource.closer 1]).factory = (Resource.nil, some "no route") ∧
      ∃ st1, step (Env.failing "no route" [Resource.closer 1]) parkedState
            (Msg.rel ⟨Resource.closer 1⟩) =
          some (st1, [Effect.factory, Effect.sendE 3 "no route"]) ∧
        st1.rp.activeWaits = [] ∧ st1.rp.numResources = parkedState.rp.numResources - 1 ∧
        st1.rp.idleResources = parkedState.rp.idleResources :=
  ⟨by decide, by decide, by decide, rfl,
    (C15_replacement_for_waiter (Env.failing "no route" [Resource.closer 1]) parkedState
      ⟨Resource.closer 1⟩ ⟨2, 3⟩ [] (by decide) (by decide) (by decide)).1
      Resource.nil "no route" rfl⟩

/-- C16: from a new pool, `mux` handles every trace of messages (whatever the
factory answers and whatever is released), and afterwards, if `activeWaits` is
not empty, the idle queue is empty; the trace being arbitrary, this holds after
every step. -/
theorem C16_waiters_only_when_idle_empty (ic mx : Int) (st : State)
    (trace : List (Env × Msg)) (hnew : st.isNew ic mx) :
    ∃ st1 held log, mux st [] trace = some (st1, held, log) ∧
      (st1.rp.activeWaits ≠ [] →
        st1.rp.idleResources.Empty = true ∧ st1.rp.idleResources.toList = [] ∧
          st1.rp.idleResources.Size = 0) := by
  obtain ⟨hi, _, _, _, _⟩ := State.isNew_model st ic mx hnew
  obtain ⟨st1, hS, hW, hM⟩ := mux_model st [] trace hnew.2
  have h := Model.mux_waits_idle st.model [] trace (fun _ => hi)
  rw [← hM] at h
  refine ⟨st1, _, _, hS, fun hne => ?_⟩
  have hl : st1.rp.idleResources.toList = [] := h hne
  refine ⟨(ring_Empty_iff _ hW.1).2 hl, hl, ?_⟩
  rw [ring_Size_eq _ hW.1, hl]
  rfl

theorem C16_waiters_only_when_idle_empty_witness :
    (State.fresh 0 1).isNew 0 1 ∧
      (mux (State.fresh 0 1) [] twoCallers).map (fun res => res.1.rp.activeWaits) =
        some [⟨2, 3⟩] ∧
      ∃ st1 held log, mux (State.fresh 0 1) [] twoCallers = some (st1, held, log) ∧
        (st1.rp.activeWaits ≠ [] →
          st1.rp.idleResources.Empty = true ∧ st1.rp.idleResources.toList = [] ∧
            st1.rp.idleResources.Size = 0) :=
  ⟨State.fresh_isNew 0 1, by decide,
    C16_waiters_only_when_idle_empty 0 1 (State.fresh 0 1) twoCallers
      (State.fresh_isNew 0 1)⟩

/-- C17, as stated, fails: on a new pool with `maxResources = 1`, after one
served acquire, two parked acquires and the release of the served resource,
closed, with a factory that fails to replace it, a request is still in
`activeWaits` while `numResources` is 0, not 1. Every release of the trace
returns a checked-out resource. -/
theorem C17_stranded_waiter :
    (0 : Int) ≤ 1 ∧ (State.fresh 0 1).isNew 0 1 ∧
      Returned (State.fresh 0 1) [] strandedTrace = true ∧
      (mux (State.fresh 0 1) [] strandedTrace).map
          (fun res => (res.1.rp.activeWaits, res.1.rp.numResources, res.1.rp.maxResources)) =
        some ([⟨4, 5⟩], 0, 1) :=
  ⟨by decide, State.fresh_isNew 0 1, by decide, by decide⟩

/-- C17, amended: for a pool created with a bound `maxResources ≥ 0`, `mux`
handles every trace of messages in which no factory call made to replace a
closed resource fails while two or more requests are parked (the factory may
fail for acquires and for the replacement of a single waiter, and anything may
be released), and afterwards, if `activeWaits` is not empty, `numResources`
equals `maxResources`. The condition holds for every prefix of such a trace,
so the equality holds after every step; by `muxRel_strands` the step that
breaks the condition breaks the equality, and by `Replaced_of_saturated` every
trace of acquires and releases on which the equality holds after every step
meets the condition. -/
theorem C17_saturated_unless_waiter_stranded (ic mx : Int) (st : State)
    (trace : List (Env × Msg)) (hmx : 0 ≤ mx) (hnew : st.isNew ic mx)
    (hok : Replaced st trace = true) :
    ∃ st1 held log, mux st [] trace = some (st1, held, log) ∧
      (st1.rp.activeWaits ≠ [] → st1.rp.numResources = mx) := by
  obtain ⟨hi, _, hmx1, hnum, hw⟩ := State.isNew_model st ic mx hnew
  obtain ⟨st1, hS, _, hM⟩ := mux_model st [] trace hnew.2
  have hR : st.model.Replaced trace = true := (Replaced_model st trace hnew.2) ▸ hok
  have h := Model.mux_saturated st.model [] trace (by rw [hmx1]; exact hmx) hR (fun _ => hi)
    (by rw [hmx1, hnum]; exact hmx) (fun hne => absurd hw hne)
  rw [← hM, hmx1] at h
  exact ⟨st1, _, _, hS, h⟩

theorem C17_saturated_unless_waiter_stranded_witness :
    (0 : Int) ≤ 1 ∧ (State.fresh 0 1).isNew 0 1 ∧
      Replaced (State.fresh 0 1) recoveredTrace = true ∧
      (mux (State.fresh 0 1) [] recoveredTrace).map
          (fun res => (res.1.rp.activeWaits, res.1.rp.numResources, res.2.2)) =
        some ([⟨6, 7⟩], 1,
          [Effect.factory, Effect.sendR 0 (Resource.closer 1), Effect.factory,
            Effect.sendE 3 "no route", Effect.factory, Effect.sendR 4 (Resource.closer 4)]) ∧
      ∃ st1 held log, mux (State.fresh 0 1) [] recoveredTrace = some (st1, held, log) ∧
        (st1.rp.activeWaits ≠ [] → st1.rp.numResources = 1) :=
  ⟨by decide, State.fresh_isNew 0 1, by decide, by decide,
    C17_saturated_unless_waiter_stranded 0 1 (State.fresh 0 1) recoveredTrace (by decide)
      (State.fresh_isNew 0 1) (by decide)⟩

set_option maxRecDepth 1000000 in
set_option maxHeartbeats 4000000 in
/-- C18, evaluated on the code: after `init`, on a pool with `idleCapacity = 0`
and `maxResources = 1`, the second caller of `Acquire()` is parked with the
message of channels 2 and 3, and that message is in `acqRing` right after the
step; after 130 calls of `Acquire()` with no release, the 130th caller has been
given that same message by `getAcquireMessage()` while the second caller is
still the head of `activeWaits`, so the message is parked twice. -/
theorem C18_parked_request_is_recycled :
    ((initState 0 1).bind (fun st => Acquires st (manyCallers 2))).map
        (fun res => (res.1.rp.activeWaits,
          decide (Resource.acq ⟨2, 3⟩ ∈ res.1.acqRing.toring.toList))) =
      some ([⟨2, 3⟩], true) ∧
    ((initState 0 1).bind (fun st => Acquires st (manyCallers 130))).map
        (fun res => (res.1.rp.activeWaits.head?, res.2.getLast?,
          res.1.rp.activeWaits.count ⟨2, 3⟩, res.1.rp.activeWaits.length)) =
      some (some ⟨2, 3⟩, some ⟨2, 3⟩, 2, 129) := by
  decide

/-- C19, evaluated on the code: from a fresh pool with `idleCapacity = 2` and
`maxResources = 3`, after three acquires and two releases the pool counts 3
resources, 2 of them idle; the close message then calls `Close()` on both and
empties the idle queue, and `numResources` is still 3, not 1. -/
theorem C19_close_keeps_numResources :
    (mux (State.fresh 2 3) [] threeThenTwo).map (fun res => res.1) = some fullIdleState ∧
    fullIdleState.rp.numResources = 3 ∧ fullIdleState.rp.idleResources.Size = 2 ∧
    (step (Env.making Resource.nil) fullIdleState (Msg.cls {})).map
        (fun res => (res.1.rp.numResources, res.1.rp.idleResources.toList, res.2)) =
      some (3, [], [Effect.close (Resource.closer 1), Effect.close (Resource.closer 2)]) := by
  decide

set_option maxRecDepth 1000000 in
set_option maxHeartbeats 4000000 in
/-- C20, evaluated on the code: `init` returns; the acquire free list holds the
128 acquire messages, each with its two channels, but the release free list
holds the integers 0 to 127 and the close free list holds the integer 0; so
`get()` on the release free list yields the integer 0, and the first
`getReleaseMessage()` and the first `getCloseMessage()` end with `ok` false and
return a message built afresh. -/
theorem C20_init_enqueues_indices :
    init.map (fun g => (g.1.toring.toList, g.2.1.toring.toList, g.2.2.toring.toList)) =
      some ((initAcquireMessages 128).map Resource.acq,
        (List.range 128).map (fun m => Resource.int m), [Resource.int 0]) ∧
    (init.bind (fun g => g.2.1.get)).map (fun res => res.1) = some (Resource.int 0) ∧
    (init.bind (fun g => getReleaseMessage g.2.1)).map (fun res => (res.1, res.2.1)) =
      some (⟨Resource.nil⟩, false) ∧
    (init.bind (fun g => getCloseMessage g.2.2)).map (fun res => (res.1, res.2.1)) =
      some ({}, false) ∧
    (init.bind (fun g => getAcquireMessage g.1 ⟨1000, 1001⟩)).map (fun res => (res.1, res.2.1)) =
      some (⟨0, 1⟩, true) := by
  decide

end pools
